import Mathlib

/-!
# mydsl::dynamic_array

A shallow embedding of `src/src/dynamic_array.cpp` and `src/include/dynamic_array.h`.

Modelling choices.

* `size_t` is an unsigned 64-bit integer.  Values are natural numbers; the arithmetic of the
  source that can leave the range (`capacity() * 2`, `size() - 1`, `--i`) is reduced modulo
  `SIZE_MOD = 2 ^ 64`.
* The heap block behind `data_` is a list; its length is the number of allocated slots.
  `new T[n]` yields `n` slots holding `default` (the value of a default-initialised `T`);
  no theorem depends on which value that is.  Allocation is taken to succeed: the `bad_alloc`
  handler ends the process.
* `throw std::out_of_range` is the fault `out_of_range`.  An access through `data() + i` outside
  the allocated block has no defined behaviour in C++ and is the fault `undefined`.  A fault
  carries the state of the object at the moment it is raised.
* Loops are recursive functions over a step budget; a loop that exhausts its budget raises
  `out_of_fuel`.  Every operation passes a budget that is proved sufficient.
* `T` has decidable equality: `==` is equality and `!=` is its negation.
* A `const T &value` parameter of a call that writes to the array before its last read of the
  parameter (`push_back`, `insert_at`, `delete_equal`) is a `Ref`: an object outside the array,
  or a slot of the array's own block, read again at every use.  The other calls take the value:
  `find_first` and `find_last` write nothing, `update_at` reads the parameter before its one
  write, and `fill` writes to the slot the parameter may refer to nothing but its own content.
* The source misspells `capacity()` as `capcity()` in `reallocate`, and declares `new_data`
  inside the `try` block; both are read as obviously intended.
-/

namespace mydsl

/-- The number of values of `size_t`. -/
def SIZE_MOD : Nat := 18446744073709551616

/-- Header, line 23: `static_cast<size_t>(-1)`. -/
def not_index : Nat := SIZE_MOD - 1

/-- Subtraction of `size_t` values. -/
def size_t_sub (x y : Nat) : Nat := (x + SIZE_MOD - y % SIZE_MOD) % SIZE_MOD

/-- Multiplication of `size_t` values. -/
def size_t_mul (x y : Nat) : Nat := (x * y) % SIZE_MOD

/-- Bitwise complement of a `size_t` value. -/
def size_t_not (x : Nat) : Nat := SIZE_MOD - 1 - x % SIZE_MOD

deriving instance DecidableEq for Except

/-- The ways a call can end other than by returning. -/
inductive Fault where
  | out_of_range
  | undefined
  | out_of_fuel
  deriving DecidableEq, Repr

/-- The private members of `dynamic_array<T>` (header, lines 26-28). -/
structure dynamic_array (T : Type) where
  data_ : List T
  capacity_ : Nat
  size_ : Nat
  deriving DecidableEq, Repr

/-- What a `const T &value` parameter refers to: an object that is not part of the array, or
the slot `data() + j` of the block the array has when the call is made, as in
`a.push_back(a.at(j))`. -/
inductive Ref (T : Type) where
  | ext (v : T)
  | slot (j : Nat)
  deriving DecidableEq, Repr

/-- A call that returns a value of type `R`, or raises a fault in a given object state. -/
abbrev Res (T : Type) (R : Type) : Type := Except (Fault × dynamic_array T) R

namespace dynamic_array

variable {T : Type}

/-- Header, line 31: `dynamic_array() = default`, with the default member initialisers. -/
def mk_default : dynamic_array T :=
  { data_ := [], capacity_ := 0, size_ := 0 }

/-- Lines 74-77. -/
def capacity (a : dynamic_array T) : Nat := a.capacity_

/-- Lines 80-83. -/
def size (a : dynamic_array T) : Nat := a.size_

/-- Lines 86-89. -/
def empty (a : dynamic_array T) : Bool := a.size == 0

/-- Lines 258-261. -/
def full (a : dynamic_array T) : Bool := a.size == a.capacity

/-- The read `*(data() + index)`. -/
def load (a : dynamic_array T) (index : Nat) : Res T T :=
  match a.data_[index]? with
  | some x => .ok x
  | none => .error (.undefined, a)

/-- The write `*(data() + index) = value`. -/
def store (a : dynamic_array T) (index : Nat) (value : T) : Res T (dynamic_array T) :=
  if index < a.data_.length then .ok { a with data_ := a.data_.set index value }
  else .error (.undefined, a)

/-- A read of the parameter `value` while the array is `a`, in a call made when the array was
`a0`.  A reference to a slot reads the slot as it is now.  `reallocate` replaces the block
exactly when it changes `capacity_` (lines 266-283); from then on the reference points into the
deleted block, and a read through it has no defined behaviour. -/
def read_arg (a a0 : dynamic_array T) (value : Ref T) : Res T T :=
  match value with
  | .ext v => .ok v
  | .slot j => if a.capacity_ = a0.capacity_ then a.load j else .error (.undefined, a)

/-- Lines 92-107: `at(index)` read. -/
def at_ (a : dynamic_array T) (index : Nat) : Res T T :=
  if index ≥ a.size then .error (.out_of_range, a)
  else a.load index

/-- Lines 101-107: `at(index) = value`, a write through the returned reference. -/
def at_assign (a : dynamic_array T) (index : Nat) (value : T) : Res T (dynamic_array T) :=
  if index ≥ a.size then .error (.out_of_range, a)
  else a.store index value

/-- Lines 110-125. -/
def front (a : dynamic_array T) : Res T T :=
  if a.empty then .error (.out_of_range, a)
  else a.load 0

/-- Lines 128-143; `data() + size() - 1` is pointer arithmetic on a non-empty array. -/
def back (a : dynamic_array T) : Res T T :=
  if a.empty then .error (.out_of_range, a)
  else a.load (a.size - 1)

/-- The loop of lines 148-152, from index `i`. -/
def find_first_loop [DecidableEq T] (a : dynamic_array T) (value : T) :
    Nat → Nat → Res T Nat
  | 0, _ => .error (.out_of_fuel, a)
  | fuel + 1, i =>
    if i < a.size then do
      let x ← a.at_ i
      if x = value then .ok i else find_first_loop a value fuel (i + 1)
    else .ok not_index

/-- Lines 146-154. -/
def find_first [DecidableEq T] (a : dynamic_array T) (value : T) : Res T Nat :=
  find_first_loop a value (a.size + 1) 0

/-- The loop of lines 159-163, from index `i`; the test `~i` is `~i != 0`. -/
def find_last_loop [DecidableEq T] (a : dynamic_array T) (value : T) :
    Nat → Nat → Res T Nat
  | 0, _ => .error (.out_of_fuel, a)
  | fuel + 1, i =>
    if size_t_not i ≠ 0 then do
      let x ← a.at_ i
      if x = value then .ok i else find_last_loop a value fuel (size_t_sub i 1)
    else .ok not_index

/-- Lines 157-165. -/
def find_last [DecidableEq T] (a : dynamic_array T) (value : T) : Res T Nat :=
  find_last_loop a value (a.size + 1) (size_t_sub a.size 1)

/-- Lines 168-171. -/
def update_at (a : dynamic_array T) (index : Nat) (value : T) : Res T (dynamic_array T) :=
  a.at_assign index value

/-- The loop of lines 176-178, from index `i`. -/
def fill_loop (value : T) : Nat → Nat → dynamic_array T → Res T (dynamic_array T)
  | 0, _, a => .error (.out_of_fuel, a)
  | fuel + 1, i, a =>
    if i < a.size then do
      let a1 ← a.at_assign i value
      fill_loop value fuel (i + 1) a1
    else .ok a

/-- Lines 174-179. -/
def fill (a : dynamic_array T) (value : T) : Res T (dynamic_array T) :=
  fill_loop value (a.size + 1) 0 a

/-- The write `*(new_data + i) = x` into the block under construction (line 275). -/
def store_new (a : dynamic_array T) (new_data : List T) (i : Nat) (x : T) : Res T (List T) :=
  if i < new_data.length then .ok (new_data.set i x)
  else .error (.undefined, a)

/-- The copy loop of lines 274-276, from index `i`, into the new block. -/
def reallocate_loop (a : dynamic_array T) : Nat → Nat → List T → Res T (List T)
  | 0, _, _ => .error (.out_of_fuel, a)
  | fuel + 1, i, new_data =>
    if i < a.size then do
      let x ← a.at_ i
      let new_data1 ← a.store_new new_data i x
      reallocate_loop a fuel (i + 1) new_data1
    else .ok new_data

/-- Lines 264-284. -/
def reallocate [Inhabited T] (a : dynamic_array T) (capacity : Nat) :
    Res T (dynamic_array T) :=
  if capacity = a.capacity then .ok a
  else do
    let new_data : List T := List.replicate capacity default
    let a1 : dynamic_array T := if a.size > capacity then { a with size_ := capacity } else a
    let new_data1 ← reallocate_loop a1 (a1.size + 1) 0 new_data
    .ok { a1 with data_ := new_data1, capacity_ := capacity }

/-- Lines 195-201. -/
def push_back [Inhabited T] (a : dynamic_array T) (value : Ref T) :
    Res T (dynamic_array T) := do
  let a1 ← (if a.full then
      a.reallocate (if a.capacity = 0 then 1 else size_t_mul a.capacity 2)
    else .ok a)
  let v ← a1.read_arg a value
  let a2 ← a1.store a1.size_ v
  .ok { a2 with size_ := a2.size_ + 1 }

/-- The loop of lines 188-190, from index `i`. -/
def insert_at_loop (index : Nat) : Nat → Nat → dynamic_array T → Res T (dynamic_array T)
  | 0, _, a => .error (.out_of_fuel, a)
  | fuel + 1, i, a =>
    if i > index then do
      let x ← a.at_ (size_t_sub i 1)
      let a1 ← a.at_assign i x
      insert_at_loop index fuel (size_t_sub i 1) a1
    else .ok a

/-- Lines 182-192. -/
def insert_at [Inhabited T] (a : dynamic_array T) (index : Nat) (value : Ref T) :
    Res T (dynamic_array T) :=
  if index > a.size then .error (.out_of_range, a)
  else do
    let a1 ← a.push_back value
    let a2 ← insert_at_loop index (a1.size + 1) (size_t_sub a1.size 1) a1
    let v ← a2.read_arg a value
    a2.at_assign index v

/-- The loop of lines 209-211, from index `i`. -/
def delete_at_loop : Nat → Nat → dynamic_array T → Res T (dynamic_array T)
  | 0, _, a => .error (.out_of_fuel, a)
  | fuel + 1, i, a =>
    if i + 1 < a.size then do
      let x ← a.at_ (i + 1)
      let a1 ← a.at_assign i x
      delete_at_loop fuel (i + 1) a1
    else .ok a

/-- Lines 204-213. -/
def delete_at (a : dynamic_array T) (index : Nat) : Res T (dynamic_array T) :=
  if index ≥ a.size then .error (.out_of_range, a)
  else do
    let a1 ← delete_at_loop (a.size + 1) index a
    .ok { a1 with size_ := a1.size_ - 1 }

/-- The loop of lines 219-223, from index `i` with write position `j`. -/
def delete_equal_loop [DecidableEq T] (value : Ref T) :
    Nat → Nat → Nat → dynamic_array T → Res T (Nat × dynamic_array T)
  | 0, _, _, a => .error (.out_of_fuel, a)
  | fuel + 1, i, j, a =>
    if i < a.size then do
      let x ← a.at_ i
      let v ← a.read_arg a value
      if x ≠ v then do
        let a1 ← a.at_assign j x
        delete_equal_loop value fuel (i + 1) (j + 1) a1
      else delete_equal_loop value fuel (i + 1) j a
    else .ok (j, a)

/-- Lines 216-225. -/
def delete_equal [DecidableEq T] (a : dynamic_array T) (value : Ref T) :
    Res T (dynamic_array T) := do
  let r ← delete_equal_loop value (a.size + 1) 0 0 a
  .ok { data_ := r.2.data_, capacity_ := r.2.capacity_, size_ := r.1 }

/-- Lines 228-234. -/
def pop_back (a : dynamic_array T) : Res T (dynamic_array T) :=
  if a.empty then .error (.out_of_range, a)
  else .ok { a with size_ := a.size_ - 1 }

/-- Lines 237-240. -/
def clear (a : dynamic_array T) : dynamic_array T :=
  { a with size_ := 0 }

/-- Lines 243-246. -/
def shrink [Inhabited T] (a : dynamic_array T) : Res T (dynamic_array T) :=
  a.reallocate a.size

/-- Lines 249-255. -/
def resize [Inhabited T] (a : dynamic_array T) (size : Nat) : Res T (dynamic_array T) := do
  let a1 ← (if size > a.capacity then a.reallocate size else .ok a)
  .ok { a1 with size_ := size }

/-- Lines 11-21: `dynamic_array(size_t size)`. -/
def mk_sized [Inhabited T] (size : Nat) : dynamic_array T :=
  { data_ := List.replicate size default, capacity_ := size, size_ := size }

/-- Lines 24-35: `dynamic_array(size_t size, const T &value)`. -/
def mk_filled [Inhabited T] (size : Nat) (value : T) : Res T (dynamic_array T) :=
  (mk_sized size).fill value

/-- The read `other.at(i)` of line 50; a fault is raised while `a` is under construction.  The
element read belongs to `other`, which is not the array under construction. -/
def at_other (a other : dynamic_array T) (i : Nat) : Res T T :=
  match other.at_ i with
  | .ok x => .ok x
  | .error e => .error (e.1, a)

/-- The loop of lines 49-51, from index `i`. -/
def copy_loop [Inhabited T] (other : dynamic_array T) :
    Nat → Nat → dynamic_array T → Res T (dynamic_array T)
  | 0, _, a => .error (.out_of_fuel, a)
  | fuel + 1, i, a =>
    if i < other.size then do
      let x ← a.at_other other i
      let a1 ← a.push_back (.ext x)
      copy_loop other fuel (i + 1) a1
    else .ok a

/-- Lines 43-52: the copy constructor, for `this != &other`; the members start from their
default initialisers. -/
def mk_copy [Inhabited T] (other : dynamic_array T) : Res T (dynamic_array T) :=
  copy_loop other (other.size + 1) 0 (mk_default : dynamic_array T).clear

/-- Calling `push_back` once per element of `vs`, in order, each argument an object outside the
array. -/
def push_back_all [Inhabited T] (a : dynamic_array T) : List T → Res T (dynamic_array T)
  | [] => .ok a
  | v :: vs => do
    let a1 ← a.push_back (.ext v)
    push_back_all a1 vs

/-- The logical sequence: the slots `[0, size)`. -/
def elements (a : dynamic_array T) : List T := a.data_.take a.size_

/-- The representation invariant: the block has `capacity_` slots, `size_ ≤ capacity_`, and
`capacity_` is a `size_t` value. -/
def WF (a : dynamic_array T) : Prop :=
  a.data_.length = a.capacity_ ∧ a.size_ ≤ a.capacity_ ∧ a.capacity_ < SIZE_MOD

instance (a : dynamic_array T) : Decidable a.WF := by
  unfold WF; infer_instance

/-- The parameter refers to an object outside the array or to a slot of its block. -/
def in_block (a : dynamic_array T) (value : Ref T) : Prop :=
  match value with
  | .ext _ => True
  | .slot j => j < a.capacity_

instance (a : dynamic_array T) (value : Ref T) : Decidable (a.in_block value) := by
  cases value <;> unfold in_block <;> infer_instance

/-- The parameter can be read throughout a call that appends: it refers to an object outside the
array, or to a slot of the block of an array that is not full, whose block the call keeps. -/
def readable (a : dynamic_array T) (value : Ref T) : Prop :=
  match value with
  | .ext _ => True
  | .slot j => j < a.capacity_ ∧ a.size_ < a.capacity_

instance (a : dynamic_array T) (value : Ref T) : Decidable (a.readable value) := by
  cases value <;> unfold readable <;> infer_instance

/-- What a call leaves behind satisfies `WF`: the call returns an array that satisfies it, or it
raises `out_of_range` while the object satisfies it. -/
def keeps_WF (r : Res T (dynamic_array T)) : Prop :=
  match r with
  | .ok a => a.WF
  | .error e => e.1 = Fault.out_of_range ∧ e.2.WF

/-- Lines 55-59: `operator=`.  The only statement before `return *this` is
`dynamic_array(other);`.  Read as an expression it constructs an unnamed copy of `other` that is
destroyed at once; read as a declaration it names a new local `other`.  In neither reading is a
member of `*this` written, so the object is returned as it was. -/
def assign [Inhabited T] (a other : dynamic_array T) : Res T (dynamic_array T) :=
  match mk_copy other with
  | .ok _ => .ok a
  | .error e => .error (e.1, a)

/-- The object after a call: the returned array, or the array as it was when the fault was
raised. -/
def state_after (r : Res T (dynamic_array T)) : dynamic_array T :=
  match r with
  | .ok a => a
  | .error e => e.2

/-! ## Arithmetic of `size_t` -/

theorem size_t_sub_one_pos {i : Nat} (h0 : 0 < i) (h : i < SIZE_MOD) : size_t_sub i 1 = i - 1 := by
  unfold size_t_sub SIZE_MOD at *
  omega

theorem size_t_sub_one_zero : size_t_sub 0 1 = not_index := by
  decide

theorem size_t_not_eq_zero_iff {i : Nat} (h : i < SIZE_MOD) : size_t_not i = 0 ↔ i = not_index := by
  unfold size_t_not not_index SIZE_MOD at *
  omega

theorem size_t_mul_two {c : Nat} (h : 2 * c < SIZE_MOD) : size_t_mul c 2 = 2 * c := by
  unfold size_t_mul SIZE_MOD at *
  omega

/-! ## Single accesses -/

theorem ok_bind {ε α β : Type} (x : α) (f : α → Except ε β) : (Except.ok x >>= f) = f x := rfl

theorem size_eq (a : dynamic_array T) : a.size = a.size_ := rfl

theorem capacity_eq (a : dynamic_array T) : a.capacity = a.capacity_ := rfl

theorem at_ok {a : dynamic_array T} {i : Nat} (hlen : a.size_ ≤ a.data_.length)
    (hi : i < a.size_) : ∃ x, a.data_[i]? = some x ∧ a.at_ i = .ok x := by
  have hlt : i < a.data_.length := by omega
  refine ⟨a.data_[i], List.getElem?_eq_getElem hlt, ?_⟩
  unfold at_ load
  rw [size_eq, if_neg (by omega), List.getElem?_eq_getElem hlt]

theorem at_assign_ok {a : dynamic_array T} {i : Nat} (hlen : a.size_ ≤ a.data_.length)
    (hi : i < a.size_) (v : T) :
    a.at_assign i v = .ok { a with data_ := a.data_.set i v } := by
  have hlt : i < a.data_.length := by omega
  unfold at_assign store
  rw [size_eq, if_neg (by omega), if_pos hlt]

theorem load_ok {a : dynamic_array T} {i : Nat} {x : T} (h : a.data_[i]? = some x) :
    a.load i = .ok x := by
  unfold load
  rw [h]

theorem read_arg_ext (a a0 : dynamic_array T) (v : T) : a.read_arg a0 (.ext v) = .ok v := rfl

theorem read_arg_slot {a a0 : dynamic_array T} {j : Nat} {w : T}
    (hc : a.capacity_ = a0.capacity_) (h : a.data_[j]? = some w) :
    a.read_arg a0 (.slot j) = .ok w := by
  show (if a.capacity_ = a0.capacity_ then a.load j else _) = _
  rw [if_pos hc]
  exact load_ok h

theorem read_arg_in_block {a a0 : dynamic_array T} {value : Ref T}
    (hc : a.capacity_ = a0.capacity_) (hv : ∀ j, value = .slot j → j < a.data_.length) :
    ∃ w, a.read_arg a0 value = .ok w ∧ (∀ v, value = .ext v → w = v) ∧
      ∀ j, value = .slot j → a.data_[j]? = some w := by
  cases value with
  | ext v =>
    refine ⟨v, rfl, ?_, ?_⟩
    · intro v1 h
      exact Ref.ext.inj h
    · intro j h
      exact Ref.noConfusion h
  | slot j =>
    have hj : j < a.data_.length := hv j rfl
    refine ⟨a.data_[j], read_arg_slot hc (List.getElem?_eq_getElem hj), ?_, ?_⟩
    · intro v h
      exact Ref.noConfusion h
    · intro j1 h
      rw [← Ref.slot.inj h]
      exact List.getElem?_eq_getElem hj

theorem getElem?_set_if {l : List T} {i k : Nat} {x : T} (hi : i < l.length) :
    (l.set i x)[k]? = if k = i then some x else l[k]? := by
  rw [List.getElem?_set]
  by_cases hk : k = i
  · subst hk
    rw [if_pos rfl, if_pos hi, if_pos rfl]
  · rw [if_neg (fun h => hk h.symm), if_neg hk]

theorem set_same {l : List T} {i : Nat} {x : T} (h : l[i]? = some x) : l.set i x = l := by
  have hlt : i < l.length := by
    rcases List.getElem?_eq_some.mp h with ⟨hlt, _⟩
    exact hlt
  apply List.ext_getElem?
  intro k
  rw [getElem?_set_if hlt]
  by_cases hk : k = i
  · rw [if_pos hk, hk, h]
  · rw [if_neg hk]

/-! ## reallocate -/

theorem reallocate_loop_spec (a : dynamic_array T) (hlen : a.size_ ≤ a.data_.length) :
    ∀ (fuel i : Nat) (nd : List T), a.size_ ≤ nd.length → a.size_ - i < fuel →
      ∃ nd1, reallocate_loop a fuel i nd = .ok nd1 ∧ nd1.length = nd.length ∧
        ∀ k, nd1[k]? = if i ≤ k ∧ k < a.size_ then a.data_[k]? else nd[k]? := by
  intro fuel
  induction fuel with
  | zero => intro i nd _ h; omega
  | succ fuel ih =>
    intro i nd hnd hfuel
    by_cases hi : i < a.size_
    · obtain ⟨x, hx, hat⟩ := at_ok hlen hi
      have hil : i < nd.length := by omega
      have hst : a.store_new nd i x = .ok (nd.set i x) := by
        unfold store_new
        rw [if_pos hil]
      obtain ⟨nd1, h1, h2, h3⟩ := ih (i + 1) (nd.set i x)
        (by rw [List.length_set]; exact hnd) (by omega)
      refine ⟨nd1, ?_, ?_, ?_⟩
      · rw [reallocate_loop, size_eq, if_pos hi, hat, ok_bind, hst, ok_bind]
        exact h1
      · rw [h2, List.length_set]
      · intro k
        rw [h3 k, getElem?_set_if hil]
        by_cases hk : k = i
        · rw [if_neg (by omega), if_pos hk, if_pos (by omega), hk, hx]
        · by_cases hk2 : i ≤ k ∧ k < a.size_
          · rw [if_pos (by omega), if_pos hk2]
          · rw [if_neg (by omega), if_neg hk, if_neg hk2]
    · refine ⟨nd, ?_, rfl, ?_⟩
      · rw [reallocate_loop, size_eq, if_neg hi]
      · intro k
        rw [if_neg (by omega)]

theorem reallocate_spec [Inhabited T] (a : dynamic_array T) (c : Nat) (hwf : a.WF)
    (hc : c < SIZE_MOD) :
    ∃ a1, a.reallocate c = .ok a1 ∧ a1.WF ∧ a1.capacity_ = c ∧ a1.size_ = min a.size_ c ∧
      (c = a.capacity_ → a1 = a) ∧
      ∀ k, k < min a.size_ c → a1.data_[k]? = a.data_[k]? := by
  obtain ⟨h1, h2, h3⟩ := hwf
  by_cases hcc : c = a.capacity_
  · refine ⟨a, ?_, ⟨h1, h2, h3⟩, hcc.symm, ?_, fun _ => rfl, fun _ _ => rfl⟩
    · unfold reallocate
      rw [capacity_eq, if_pos hcc]
    · omega
  · by_cases hs : a.size_ > c
    · obtain ⟨nd1, e1, e2, e3⟩ := reallocate_loop_spec
        ({ a with size_ := c } : dynamic_array T) (by show c ≤ a.data_.length; omega) (c + 1) 0
        (List.replicate c default) (by rw [List.length_replicate])
        (by show c - 0 < c + 1; omega)
      rw [List.length_replicate] at e2
      refine ⟨{ data_ := nd1, capacity_ := c, size_ := c }, ?_, ⟨e2, le_refl c, hc⟩, rfl, ?_,
        fun h => absurd h hcc, ?_⟩
      · unfold reallocate
        rw [capacity_eq, if_neg hcc, size_eq]
        simp only [if_pos hs]
        rw [size_eq]
        show (reallocate_loop _ (c + 1) 0 _ >>= _) = _
        rw [e1, ok_bind]
      · show c = min a.size_ c
        omega
      · intro k hk
        have e3k : nd1[k]? = if 0 ≤ k ∧ k < c then a.data_[k]? else
            (List.replicate c default)[k]? := e3 k
        show nd1[k]? = _
        rw [e3k, if_pos (by omega)]
    · obtain ⟨nd1, e1, e2, e3⟩ := reallocate_loop_spec a (by omega) (a.size_ + 1) 0
        (List.replicate c default) (by rw [List.length_replicate]; omega) (by omega)
      rw [List.length_replicate] at e2
      refine ⟨{ data_ := nd1, capacity_ := c, size_ := a.size_ }, ?_,
        ⟨e2, by show a.size_ ≤ c; omega, hc⟩, rfl, ?_, fun h => absurd h hcc, ?_⟩
      · unfold reallocate
        rw [capacity_eq, if_neg hcc, size_eq]
        simp only [if_neg hs]
        rw [size_eq, e1, ok_bind]
      · show a.size_ = min a.size_ c
        omega
      · intro k hk
        show nd1[k]? = _
        rw [e3 k, if_pos (by omega)]

/-! ## push_back -/

theorem elements_getElem? (a : dynamic_array T) (k : Nat) :
    a.elements[k]? = if k < a.size_ then a.data_[k]? else none := by
  unfold elements
  rw [List.getElem?_take]

theorem elements_length {a : dynamic_array T} (h : a.size_ ≤ a.data_.length) :
    a.elements.length = a.size_ := by
  unfold elements
  rw [List.length_take]
  omega

theorem push_back_of_read [Inhabited T] (a : dynamic_array T) (value : Ref T) (v : T)
    (hwf : a.WF) (hgrow : a.size_ = a.capacity_ → 2 * a.capacity_ < SIZE_MOD)
    (hread : ∀ a1 : dynamic_array T, (a.size_ ≠ a.capacity_ → a1 = a) →
      a1.read_arg a value = .ok v) :
    ∃ a1, a.push_back value = .ok a1 ∧ a1.WF ∧ a1.size_ = a.size_ + 1 ∧
      a1.capacity_ = (if a.size_ = a.capacity_ then max 1 (2 * a.capacity_) else a.capacity_) ∧
      (∀ k, k < a.size_ → a1.data_[k]? = a.data_[k]?) ∧ a1.data_[a.size_]? = some v := by
  by_cases hfull : a.size_ = a.capacity_
  · have hg := hgrow hfull
    have hfull1 : a.full = true := by
      unfold full
      rw [size_eq, capacity_eq, hfull]
      exact beq_self_eq_true _
    have hnew : (if a.capacity = 0 then 1 else size_t_mul a.capacity 2) =
        max 1 (2 * a.capacity_) := by
      rw [capacity_eq]
      by_cases h0 : a.capacity_ = 0
      · rw [if_pos h0, h0]
        rfl
      · rw [if_neg h0, size_t_mul_two hg]
        omega
    have hlt : max 1 (2 * a.capacity_) < SIZE_MOD := by
      have : 1 < SIZE_MOD := by decide
      omega
    obtain ⟨a1, e1, ⟨w1, w2, w3⟩, e3, e4, _, e6⟩ :=
      reallocate_spec a (max 1 (2 * a.capacity_)) hwf hlt
    have hs1 : a1.size_ = a.size_ := by rw [e4]; omega
    have hst : a1.size_ < a1.data_.length := by omega
    have hstore : a1.store a1.size_ v = .ok { a1 with data_ := a1.data_.set a1.size_ v } := by
      unfold store
      rw [if_pos hst]
    refine ⟨{ a1 with data_ := a1.data_.set a1.size_ v, size_ := a1.size_ + 1 },
      ?_, ⟨?_, ?_, w3⟩, ?_, ?_, ?_, ?_⟩
    · unfold push_back
      rw [if_pos hfull1, hnew, e1, ok_bind, hread a1 (fun h => absurd hfull h), ok_bind, hstore,
        ok_bind]
    · show (a1.data_.set a1.size_ v).length = a1.capacity_
      rw [List.length_set]
      exact w1
    · show a1.size_ + 1 ≤ a1.capacity_
      omega
    · show a1.size_ + 1 = a.size_ + 1
      rw [hs1]
    · show a1.capacity_ = _
      rw [if_pos hfull, e3]
    · intro k hk
      show (a1.data_.set a1.size_ v)[k]? = _
      rw [getElem?_set_if hst, if_neg (by omega)]
      exact e6 k (by omega)
    · show (a1.data_.set a1.size_ v)[a.size_]? = _
      rw [getElem?_set_if hst, if_pos hs1.symm]
  · obtain ⟨h1, h2, h3⟩ := hwf
    have hfull1 : ¬ a.full = true := by
      unfold full
      rw [size_eq, capacity_eq]
      intro h
      exact hfull (eq_of_beq h)
    have hst : a.size_ < a.data_.length := by omega
    have hstore : a.store a.size_ v = .ok { a with data_ := a.data_.set a.size_ v } := by
      unfold store
      rw [if_pos hst]
    refine ⟨{ a with data_ := a.data_.set a.size_ v, size_ := a.size_ + 1 },
      ?_, ⟨?_, ?_, h3⟩, rfl, ?_, ?_, ?_⟩
    · unfold push_back
      rw [if_neg hfull1, ok_bind, hread a (fun _ => rfl), ok_bind, hstore, ok_bind]
    · show (a.data_.set a.size_ v).length = a.capacity_
      rw [List.length_set]
      exact h1
    · show a.size_ + 1 ≤ a.capacity_
      omega
    · show a.capacity_ = _
      rw [if_neg hfull]
    · intro k hk
      show (a.data_.set a.size_ v)[k]? = _
      rw [getElem?_set_if hst, if_neg (by omega)]
    · show (a.data_.set a.size_ v)[a.size_]? = _
      rw [getElem?_set_if hst, if_pos rfl]

theorem push_back_spec [Inhabited T] (a : dynamic_array T) (v : T) (hwf : a.WF)
    (hgrow : a.size_ = a.capacity_ → 2 * a.capacity_ < SIZE_MOD) :
    ∃ a1, a.push_back (.ext v) = .ok a1 ∧ a1.WF ∧ a1.size_ = a.size_ + 1 ∧
      a1.capacity_ = (if a.size_ = a.capacity_ then max 1 (2 * a.capacity_) else a.capacity_) ∧
      (∀ k, k < a.size_ → a1.data_[k]? = a.data_[k]?) ∧ a1.data_[a.size_]? = some v :=
  push_back_of_read a (.ext v) v hwf hgrow (fun _ _ => rfl)

theorem push_back_ref_spec [Inhabited T] (a : dynamic_array T) (value : Ref T) (hwf : a.WF)
    (hgrow : a.size_ = a.capacity_ → 2 * a.capacity_ < SIZE_MOD) (hr : a.readable value) :
    ∃ a1 w, a.push_back value = .ok a1 ∧ a1.WF ∧ a1.size_ = a.size_ + 1 ∧
      a1.capacity_ = (if a.size_ = a.capacity_ then max 1 (2 * a.capacity_) else a.capacity_) ∧
      (∀ k, k < a.size_ → a1.data_[k]? = a.data_[k]?) ∧ a1.data_[a.size_]? = some w ∧
      ∀ v, value = .ext v → w = v := by
  cases value with
  | ext v =>
    obtain ⟨a1, h⟩ := push_back_spec a v hwf hgrow
    refine ⟨a1, v, h.1, h.2.1, h.2.2.1, h.2.2.2.1, h.2.2.2.2.1, h.2.2.2.2.2, ?_⟩
    intro v1 hv
    exact Ref.ext.inj hv
  | slot j =>
    have hj : j < a.capacity_ := hr.1
    have hnf : a.size_ < a.capacity_ := hr.2
    have hjl : j < a.data_.length := by
      rw [hwf.1]
      exact hj
    obtain ⟨a1, h⟩ := push_back_of_read a (.slot j) a.data_[j] hwf hgrow (by
      intro a1 h1
      rw [h1 (by omega)]
      exact read_arg_slot rfl (List.getElem?_eq_getElem hjl))
    refine ⟨a1, a.data_[j], h.1, h.2.1, h.2.2.1, h.2.2.2.1, h.2.2.2.2.1, h.2.2.2.2.2, ?_⟩
    intro v hv
    exact Ref.noConfusion hv

theorem push_back_elements [Inhabited T] (a : dynamic_array T) (v : T) (hwf : a.WF)
    (hgrow : a.size_ = a.capacity_ → 2 * a.capacity_ < SIZE_MOD) :
    ∃ a1, a.push_back (.ext v) = .ok a1 ∧ a1.WF ∧ a1.size_ = a.size_ + 1 ∧
      a1.elements = a.elements ++ [v] := by
  obtain ⟨a1, e1, w, e2, _, e4, e5⟩ := push_back_spec a v hwf hgrow
  refine ⟨a1, e1, w, e2, ?_⟩
  have hl : a.size_ ≤ a.data_.length := by
    obtain ⟨h1, h2, _⟩ := hwf
    omega
  apply List.ext_getElem?
  intro k
  rw [elements_getElem?, e2]
  by_cases hk : k < a.size_
  · rw [List.getElem?_append_left (by rw [elements_length hl]; exact hk), elements_getElem?,
      if_pos (by omega), if_pos hk]
    exact e4 k hk
  · rw [List.getElem?_append_right (by rw [elements_length hl]; omega), elements_length hl]
    by_cases hk2 : k = a.size_
    · rw [if_pos (by omega), hk2, e5, Nat.sub_self]
      rfl
    · rw [if_neg (by omega)]
      have h2 : k - a.size_ = (k - a.size_ - 1) + 1 := by omega
      rw [h2]
      rfl

theorem push_back_all_spec [Inhabited T] (vs : List T) :
    ∀ a : dynamic_array T, a.WF → 2 * (a.size_ + vs.length) ≤ SIZE_MOD →
      ∃ a1, push_back_all a vs = .ok a1 ∧ a1.WF ∧ a1.size_ = a.size_ + vs.length ∧
        a1.elements = a.elements ++ vs := by
  induction vs with
  | nil =>
    intro a hwf _
    exact ⟨a, rfl, hwf, rfl, (List.append_nil _).symm⟩
  | cons v vs ih =>
    intro a hwf hb
    have hcap := hwf.2.1
    rw [List.length_cons] at hb
    obtain ⟨a1, e1, w1, s1, l1⟩ := push_back_elements a v hwf (by intro h; omega)
    obtain ⟨a2, e2, w2, s2, l2⟩ := ih a1 w1 (by omega)
    refine ⟨a2, ?_, w2, ?_, ?_⟩
    · rw [push_back_all, e1, ok_bind]
      exact e2
    · rw [s2, s1, List.length_cons]
      omega
    · rw [l2, l1, List.append_assoc]
      rfl

theorem mk_default_WF : (mk_default : dynamic_array T).WF := by
  refine ⟨rfl, le_refl 0, ?_⟩
  show 0 < SIZE_MOD
  decide

theorem at_of_elements {a : dynamic_array T} {i : Nat} {x : T}
    (h : a.elements[i]? = some x) : a.at_ i = .ok x := by
  rw [elements_getElem?] at h
  by_cases hi : i < a.size_
  · rw [if_pos hi] at h
    unfold at_ load
    rw [size_eq, if_neg (by omega), h]
  · rw [if_neg hi] at h
    exact absurd h (by simp)

/-! ## insert_at -/

theorem insert_at_loop_spec (index : Nat) :
    ∀ (fuel i : Nat) (a : dynamic_array T), a.size_ ≤ a.data_.length → a.size_ ≤ SIZE_MOD →
      i < a.size_ → i - index < fuel →
      ∃ a1, insert_at_loop index fuel i a = .ok a1 ∧ a1.size_ = a.size_ ∧
        a1.capacity_ = a.capacity_ ∧ a1.data_.length = a.data_.length ∧
        ∀ k, a1.data_[k]? = if index < k ∧ k ≤ i then a.data_[k - 1]? else a.data_[k]? := by
  intro fuel
  induction fuel with
  | zero => intro i a _ _ _ h; omega
  | succ fuel ih =>
    intro i a hlen hmod hi hfuel
    by_cases hgt : i > index
    · have hsub : size_t_sub i 1 = i - 1 := size_t_sub_one_pos (by omega) (by omega)
      obtain ⟨x, hx, hat⟩ := at_ok (i := i - 1) hlen (by omega)
      have has := at_assign_ok hlen hi x
      have hil : i < a.data_.length := by omega
      obtain ⟨a1, e1, e2, e3, e4, e5⟩ := ih (i - 1) { a with data_ := a.data_.set i x }
        (by show a.size_ ≤ (a.data_.set i x).length; rw [List.length_set]; exact hlen) hmod
        (by show i - 1 < a.size_; omega) (by omega)
      refine ⟨a1, ?_, e2, e3, ?_, ?_⟩
      · rw [insert_at_loop, if_pos hgt, hsub, hat, ok_bind, has, ok_bind]
        exact e1
      · rw [e4]
        show (a.data_.set i x).length = _
        rw [List.length_set]
      · intro k
        have e5k : a1.data_[k]? = if index < k ∧ k ≤ i - 1 then (a.data_.set i x)[k - 1]?
            else (a.data_.set i x)[k]? := e5 k
        rw [e5k, getElem?_set_if hil, getElem?_set_if hil]
        by_cases hk : k = i
        · subst hk
          rw [if_neg (by omega), if_pos rfl, if_pos (by omega), hx]
        · by_cases c3 : index < k ∧ k ≤ i
          · rw [if_pos (by omega), if_neg (by omega), if_pos c3]
          · rw [if_neg (by omega), if_neg hk, if_neg c3]
    · refine ⟨a, ?_, rfl, rfl, rfl, ?_⟩
      · rw [insert_at_loop, if_neg hgt]
      · intro k
        rw [if_neg (by omega)]

theorem getElem?_take_cons_drop (xs : List T) (i : Nat) (v : T) (hi : i ≤ xs.length) (k : Nat) :
    (xs.take i ++ [v] ++ xs.drop i)[k]? =
      if k < i then xs[k]? else if k = i then some v else xs[k - 1]? := by
  have h1 : (xs.take i).length = i := by
    rw [List.length_take]
    omega
  rw [List.append_assoc]
  by_cases hk : k < i
  · rw [if_pos hk, List.getElem?_append_left (by omega), List.getElem?_take_of_lt hk]
  · rw [if_neg hk, List.getElem?_append_right (by omega), h1]
    by_cases hk2 : k = i
    · rw [if_pos hk2, hk2, Nat.sub_self, List.singleton_append, List.getElem?_cons_zero]
    · rw [if_neg hk2]
      have h2 : k - i = (k - i - 1) + 1 := by omega
      rw [h2, List.singleton_append, List.getElem?_cons_succ, List.getElem?_drop]
      congr 1
      omega

theorem insert_at_ref_spec [Inhabited T] (a : dynamic_array T) (index : Nat) (value : Ref T)
    (hwf : a.WF) (hgrow : a.size_ = a.capacity_ → 2 * a.capacity_ < SIZE_MOD)
    (hr : a.readable value) (hidx : index ≤ a.size_) :
    ∃ a1 v, a.insert_at index value = .ok a1 ∧ a1.WF ∧ a1.size_ = a.size_ + 1 ∧
      a1.capacity_ = (if a.size_ = a.capacity_ then max 1 (2 * a.capacity_) else a.capacity_) ∧
      a1.elements = a.elements.take index ++ [v] ++ a.elements.drop index ∧
      ∀ v1, value = .ext v1 → v = v1 := by
  obtain ⟨a1, _, e1, ⟨w1, w2, w3⟩, s1, c1, d1, _⟩ := push_back_ref_spec a value hwf hgrow hr
  have hlen1 : a1.size_ ≤ a1.data_.length := by omega
  have hpos : 0 < a1.size_ := by omega
  have hlt : a1.size_ < SIZE_MOD := by omega
  have hsub : size_t_sub a1.size_ 1 = a.size_ := by
    rw [size_t_sub_one_pos hpos hlt, s1]
    omega
  obtain ⟨a2, e2, s2, c2, l2, d3⟩ := insert_at_loop_spec index (a1.size_ + 1) a.size_ a1 hlen1
    (le_of_lt hlt) (by rw [s1]; exact Nat.lt_succ_self _) (by rw [s1]; omega)
  have hlen2 : a2.size_ ≤ a2.data_.length := by omega
  have hidx2 : index < a2.size_ := by omega
  have hil : index < a2.data_.length := by omega
  have hl : a.size_ ≤ a.data_.length := by
    obtain ⟨h1, h2, _⟩ := hwf
    omega
  have hread : ∃ v, a2.read_arg a value = .ok v ∧ ∀ v1, value = .ext v1 → v = v1 := by
    cases value with
    | ext v0 => exact ⟨v0, rfl, fun v1 h => Ref.ext.inj h⟩
    | slot j =>
      have hj : j < a.capacity_ := hr.1
      have hnf : a.size_ < a.capacity_ := hr.2
      rw [if_neg (by omega)] at c1
      have hjl : j < a2.data_.length := by omega
      exact ⟨a2.data_[j], read_arg_slot (by omega) (List.getElem?_eq_getElem hjl),
        fun v1 h => Ref.noConfusion h⟩
  obtain ⟨v, hv, hext⟩ := hread
  refine ⟨{ a2 with data_ := a2.data_.set index v }, v, ?_, ⟨?_, ?_, ?_⟩, ?_, ?_, ?_, hext⟩
  · unfold insert_at
    rw [size_eq, if_neg (by omega), e1, ok_bind, size_eq, hsub, e2, ok_bind, hv, ok_bind]
    exact at_assign_ok hlen2 hidx2 v
  · show (a2.data_.set index v).length = a2.capacity_
    rw [List.length_set]
    omega
  · show a2.size_ ≤ a2.capacity_
    omega
  · show a2.capacity_ < SIZE_MOD
    omega
  · show a2.size_ = a.size_ + 1
    omega
  · show a2.capacity_ = _
    rw [c2, c1]
  · apply List.ext_getElem?
    intro k
    rw [elements_getElem?, getElem?_take_cons_drop _ _ _ (by rw [elements_length hl]; exact hidx)]
    show (if k < a2.size_ then (a2.data_.set index v)[k]? else none) = _
    rw [s2, s1, getElem?_set_if hil, d3 k, elements_getElem?, elements_getElem?]
    by_cases hk : k < index
    · rw [if_pos (by omega), if_neg (by omega), if_neg (by omega), if_pos hk, if_pos (by omega)]
      exact d1 k (by omega)
    · by_cases hk2 : k = index
      · rw [if_pos (by omega), if_pos hk2, if_neg hk, if_pos hk2]
      · by_cases hk3 : k ≤ a.size_
        · rw [if_pos (by omega), if_neg hk2, if_pos (by omega), if_neg hk, if_neg hk2,
            if_pos (by omega)]
          exact d1 (k - 1) (by omega)
        · rw [if_neg (by omega), if_neg hk, if_neg hk2, if_neg (by omega)]

theorem insert_at_spec [Inhabited T] (a : dynamic_array T) (index : Nat) (v : T) (hwf : a.WF)
    (hgrow : a.size_ = a.capacity_ → 2 * a.capacity_ < SIZE_MOD) (hidx : index ≤ a.size_) :
    ∃ a1, a.insert_at index (.ext v) = .ok a1 ∧ a1.WF ∧ a1.size_ = a.size_ + 1 ∧
      a1.capacity_ = (if a.size_ = a.capacity_ then max 1 (2 * a.capacity_) else a.capacity_) ∧
      a1.elements = a.elements.take index ++ [v] ++ a.elements.drop index := by
  obtain ⟨a1, w, e1, h1, h2, h3, h4, h5⟩ :=
    insert_at_ref_spec a index (.ext v) hwf hgrow trivial hidx
  rw [h5 v rfl] at h4
  exact ⟨a1, e1, h1, h2, h3, h4⟩

/-! ## delete_at -/

theorem delete_at_loop_spec :
    ∀ (fuel i : Nat) (a : dynamic_array T), a.size_ ≤ a.data_.length →
      a.size_ - i < fuel →
      ∃ a1, delete_at_loop fuel i a = .ok a1 ∧ a1.size_ = a.size_ ∧
        a1.capacity_ = a.capacity_ ∧ a1.data_.length = a.data_.length ∧
        ∀ k, a1.data_[k]? = if i ≤ k ∧ k + 1 < a.size_ then a.data_[k + 1]? else a.data_[k]? := by
  intro fuel
  induction fuel with
  | zero => intro i a _ h; omega
  | succ fuel ih =>
    intro i a hlen hfuel
    by_cases hlt : i + 1 < a.size_
    · obtain ⟨x, hx, hat⟩ := at_ok (i := i + 1) hlen hlt
      have has := at_assign_ok (i := i) hlen (by omega) x
      have hil : i < a.data_.length := by omega
      obtain ⟨a1, e1, e2, e3, e4, e5⟩ := ih (i + 1) { a with data_ := a.data_.set i x }
        (by show a.size_ ≤ (a.data_.set i x).length; rw [List.length_set]; exact hlen)
        (by show a.size_ - (i + 1) < fuel; omega)
      refine ⟨a1, ?_, e2, e3, ?_, ?_⟩
      · rw [delete_at_loop, size_eq, if_pos hlt, hat, ok_bind, has, ok_bind]
        exact e1
      · rw [e4]
        show (a.data_.set i x).length = _
        rw [List.length_set]
      · intro k
        have e5k : a1.data_[k]? = if i + 1 ≤ k ∧ k + 1 < a.size_ then (a.data_.set i x)[k + 1]?
            else (a.data_.set i x)[k]? := e5 k
        rw [e5k, getElem?_set_if hil, getElem?_set_if hil]
        by_cases hk : k = i
        · subst hk
          rw [if_neg (by omega), if_pos rfl, if_pos (by omega), hx]
        · by_cases c3 : i ≤ k ∧ k + 1 < a.size_
          · rw [if_pos (by omega), if_neg (by omega), if_pos c3]
          · rw [if_neg (by omega), if_neg hk, if_neg c3]
    · refine ⟨a, ?_, rfl, rfl, rfl, ?_⟩
      · rw [delete_at_loop, size_eq, if_neg hlt]
      · intro k
        rw [if_neg (by omega)]

theorem delete_at_spec (a : dynamic_array T) (index : Nat) (hwf : a.WF)
    (hidx : index < a.size_) :
    ∃ a1, a.delete_at index = .ok a1 ∧ a1.WF ∧ a1.size_ = a.size_ - 1 ∧
      a1.capacity_ = a.capacity_ ∧ a1.elements = a.elements.eraseIdx index := by
  obtain ⟨h1, h2, h3⟩ := hwf
  have hlen : a.size_ ≤ a.data_.length := by omega
  obtain ⟨a1, e1, s1, c1, l1, d1⟩ := delete_at_loop_spec (a.size_ + 1) index a hlen (by omega)
  refine ⟨{ a1 with size_ := a1.size_ - 1 }, ?_, ⟨?_, ?_, ?_⟩, ?_, c1, ?_⟩
  · unfold delete_at
    rw [size_eq, if_neg (by omega), e1, ok_bind]
  · show a1.data_.length = a1.capacity_
    omega
  · show a1.size_ - 1 ≤ a1.capacity_
    omega
  · show a1.capacity_ < SIZE_MOD
    omega
  · show a1.size_ - 1 = a.size_ - 1
    rw [s1]
  · apply List.ext_getElem?
    intro k
    rw [elements_getElem?, List.getElem?_eraseIdx, elements_getElem?, elements_getElem?]
    show (if k < a1.size_ - 1 then a1.data_[k]? else none) = _
    rw [s1, d1 k]
    by_cases hk : k < index
    · rw [if_pos (by omega), if_neg (by omega), if_pos hk, if_pos (by omega)]
    · by_cases hk2 : k + 1 < a.size_
      · rw [if_pos (by omega), if_pos (by omega), if_neg hk, if_pos hk2]
      · rw [if_neg (by omega), if_neg hk, if_neg hk2]

theorem eraseIdx_insert (xs : List T) (i : Nat) (v : T) (hi : i ≤ xs.length) :
    (xs.take i ++ [v] ++ xs.drop i).eraseIdx i = xs := by
  apply List.ext_getElem?
  intro k
  rw [List.getElem?_eraseIdx, getElem?_take_cons_drop xs i v hi,
    getElem?_take_cons_drop xs i v hi]
  by_cases hk : k < i
  · rw [if_pos hk, if_pos hk]
  · rw [if_neg hk, if_neg (by omega), if_neg (by omega)]
    rfl

/-! ## delete_equal -/

theorem take_succ_set {l : List T} {j : Nat} (x : T) (hj : j < l.length) :
    (l.set j x).take (j + 1) = l.take j ++ [x] := by
  apply List.ext_getElem?
  intro k
  have h1 : (l.take j).length = j := by
    rw [List.length_take]
    omega
  rw [List.getElem?_take, getElem?_set_if hj]
  by_cases hk : k < j
  · rw [if_pos (by omega), if_neg (by omega), List.getElem?_append_left (by omega),
      List.getElem?_take_of_lt hk]
  · rw [List.getElem?_append_right (by omega), h1]
    by_cases hk2 : k = j
    · rw [if_pos (by omega), if_pos hk2, hk2, Nat.sub_self]
      rfl
    · rw [if_neg (by omega)]
      have h2 : k - j = (k - j - 1) + 1 := by omega
      rw [h2]
      rfl

theorem drop_take_set {l : List T} {i j n : Nat} (x : T) (hji : j ≤ i) :
    ((l.set j x).take n).drop (i + 1) = (l.take n).drop (i + 1) := by
  apply List.ext_getElem?
  intro k
  rw [List.getElem?_drop, List.getElem?_drop, List.getElem?_take, List.getElem?_take,
    List.getElem?_set_ne (by omega)]

theorem drop_take_cons {l : List T} {i n : Nat} {x : T} (hi : i < n) (hx : l[i]? = some x) :
    (l.take n).drop i = x :: (l.take n).drop (i + 1) := by
  have h2 : (l.take n)[i]? = some x := by
    rw [List.getElem?_take, if_pos hi, hx]
  rcases List.getElem?_eq_some.mp h2 with ⟨hlt, h3⟩
  rw [List.drop_eq_getElem_cons hlt, h3]

theorem delete_equal_loop_spec [DecidableEq T] (v : T) :
    ∀ (fuel i j : Nat) (a : dynamic_array T), a.size_ ≤ a.data_.length → j ≤ i →
      i ≤ a.size_ → a.size_ - i < fuel →
      ∃ j1 a1, delete_equal_loop (.ext v) fuel i j a = .ok (j1, a1) ∧ a1.size_ = a.size_ ∧
        a1.capacity_ = a.capacity_ ∧ a1.data_.length = a.data_.length ∧ j1 ≤ a.size_ ∧
        a1.data_.take j1 =
          a.data_.take j ++ ((a.data_.take a.size_).drop i).filter (fun x => decide (x ≠ v)) := by
  intro fuel
  induction fuel with
  | zero => intro i j a _ _ _ h; omega
  | succ fuel ih =>
    intro i j a hlen hji his hfuel
    by_cases hlt : i < a.size_
    · obtain ⟨x, hx, hat⟩ := at_ok hlen hlt
      have hcons := drop_take_cons hlt hx
      by_cases hxv : x = v
      · obtain ⟨j1, a1, e1, e2, e3, e4, e5, e6⟩ := ih (i + 1) j a hlen (by omega) (by omega)
          (by omega)
        refine ⟨j1, a1, ?_, e2, e3, e4, e5, ?_⟩
        · rw [delete_equal_loop, size_eq, if_pos hlt, hat, ok_bind, read_arg_ext, ok_bind,
            if_neg (not_not.mpr hxv)]
          exact e1
        · rw [e6, hcons, List.filter_cons_of_neg]
          rw [decide_eq_true_eq]
          exact not_not.mpr hxv
      · have has := at_assign_ok (i := j) hlen (by omega) x
        have hjl : j < a.data_.length := by omega
        obtain ⟨j1, a1, e1, e2, e3, e4, e5, e6⟩ := ih (i + 1) (j + 1)
          { a with data_ := a.data_.set j x }
          (by show a.size_ ≤ (a.data_.set j x).length; rw [List.length_set]; exact hlen)
          (by omega) (by show i + 1 ≤ a.size_; omega)
          (by show a.size_ - (i + 1) < fuel; omega)
        refine ⟨j1, a1, ?_, e2, e3, ?_, e5, ?_⟩
        · rw [delete_equal_loop, size_eq, if_pos hlt, hat, ok_bind, read_arg_ext, ok_bind,
            if_pos hxv, has, ok_bind]
          exact e1
        · rw [e4]
          show (a.data_.set j x).length = _
          rw [List.length_set]
        · rw [e6, hcons]
          show (a.data_.set j x).take (j + 1) ++
            List.filter _ (((a.data_.set j x).take a.size_).drop (i + 1)) = _
          rw [take_succ_set x hjl, drop_take_set x hji, List.filter_cons_of_pos,
            List.append_assoc]
          · rfl
          · rw [decide_eq_true_eq]
            exact hxv
    · have hi : i = a.size_ := by omega
      refine ⟨j, a, ?_, rfl, rfl, rfl, by omega, ?_⟩
      · rw [delete_equal_loop, size_eq, if_neg hlt]
      · have hnil : List.drop i (List.take a.size_ a.data_) = [] := by
          apply List.drop_eq_nil_of_le
          rw [List.length_take]
          omega
        rw [hnil, List.filter_nil, List.append_nil]

theorem delete_equal_loop_noop [DecidableEq T] (v : T) :
    ∀ (fuel i : Nat) (a : dynamic_array T), a.size_ ≤ a.data_.length → i ≤ a.size_ →
      a.size_ - i < fuel → (∀ k, i ≤ k → k < a.size_ → a.data_[k]? ≠ some v) →
      delete_equal_loop (.ext v) fuel i i a = .ok (a.size_, a) := by
  intro fuel
  induction fuel with
  | zero => intro i a _ _ h; omega
  | succ fuel ih =>
    intro i a hlen his hfuel hne
    by_cases hlt : i < a.size_
    · obtain ⟨x, hx, hat⟩ := at_ok hlen hlt
      have hxv : x ≠ v := by
        intro h
        exact hne i (le_refl i) hlt (by rw [hx, h])
      have has := at_assign_ok (i := i) hlen hlt x
      rw [set_same hx] at has
      rw [delete_equal_loop, size_eq, if_pos hlt, hat, ok_bind, read_arg_ext, ok_bind,
        if_pos hxv, has, ok_bind]
      exact ih (i + 1) a hlen (by omega) (by omega) (fun k hk => hne k (by omega))
    · have hi : i = a.size_ := by omega
      rw [delete_equal_loop, size_eq, if_neg hlt, hi]

theorem delete_equal_spec [DecidableEq T] (a : dynamic_array T) (v : T) (hwf : a.WF) :
    ∃ a1, a.delete_equal (.ext v) = .ok a1 ∧ a1.WF ∧ a1.capacity_ = a.capacity_ ∧
      a1.elements = a.elements.filter (fun x => decide (x ≠ v)) ∧
      ((∀ x ∈ a.elements, x ≠ v) → a1 = a) := by
  obtain ⟨h1, h2, h3⟩ := hwf
  have hlen : a.size_ ≤ a.data_.length := by omega
  obtain ⟨j1, a1, e1, s1, c1, l1, b1, d1⟩ := delete_equal_loop_spec v (a.size_ + 1) 0 0 a hlen
    (le_refl 0) (by omega) (by omega)
  have hrun : a.delete_equal (.ext v) =
      .ok { data_ := a1.data_, capacity_ := a1.capacity_, size_ := j1 } := by
    unfold delete_equal
    rw [size_eq, e1, ok_bind]
  refine ⟨{ data_ := a1.data_, capacity_ := a1.capacity_, size_ := j1 }, hrun, ⟨?_, ?_, ?_⟩,
    c1, ?_, ?_⟩
  · show a1.data_.length = a1.capacity_
    omega
  · show j1 ≤ a1.capacity_
    omega
  · show a1.capacity_ < SIZE_MOD
    omega
  · show a1.data_.take j1 = _
    rw [d1, List.take_zero, List.nil_append, List.drop_zero]
    rfl
  · intro hall
    have hnoop := delete_equal_loop_noop v (a.size_ + 1) 0 a hlen (by omega) (by omega)
      (by
        intro k _ hk hkv
        have hmem : v ∈ a.elements := by
          have : a.elements[k]? = some v := by
            rw [elements_getElem?, if_pos hk, hkv]
          exact List.mem_iff_getElem?.mpr ⟨k, this⟩
        exact hall v hmem rfl)
    rw [e1] at hnoop
    injection hnoop with h
    injection h with hj ha
    subst hj ha
    rfl

theorem delete_equal_loop_frame [DecidableEq T] (value : Ref T) :
    ∀ (fuel i j : Nat) (a : dynamic_array T), a.size_ ≤ a.data_.length →
      (∀ s, value = .slot s → s < a.data_.length) → j ≤ i → i ≤ a.size_ →
      a.size_ - i < fuel →
      ∃ j1 a1, delete_equal_loop value fuel i j a = .ok (j1, a1) ∧ a1.size_ = a.size_ ∧
        a1.capacity_ = a.capacity_ ∧ a1.data_.length = a.data_.length ∧ j1 ≤ a.size_ := by
  intro fuel
  induction fuel with
  | zero => intro i j a _ _ _ _ h; omega
  | succ fuel ih =>
    intro i j a hlen hv hji his hfuel
    by_cases hlt : i < a.size_
    · obtain ⟨x, hx, hat⟩ := at_ok hlen hlt
      obtain ⟨w, hw, _⟩ := read_arg_in_block (rfl : a.capacity_ = a.capacity_) hv
      by_cases hxw : x = w
      · obtain ⟨j1, a1, e1, e2, e3, e4, e5⟩ := ih (i + 1) j a hlen hv (by omega) (by omega)
          (by omega)
        refine ⟨j1, a1, ?_, e2, e3, e4, e5⟩
        rw [delete_equal_loop, size_eq, if_pos hlt, hat, ok_bind, hw, ok_bind,
          if_neg (not_not.mpr hxw)]
        exact e1
      · have has := at_assign_ok (i := j) hlen (by omega) x
        obtain ⟨j1, a1, e1, e2, e3, e4, e5⟩ := ih (i + 1) (j + 1)
          { a with data_ := a.data_.set j x }
          (by show a.size_ ≤ (a.data_.set j x).length; rw [List.length_set]; exact hlen)
          (by
            intro s hs
            show s < (a.data_.set j x).length
            rw [List.length_set]
            exact hv s hs)
          (by omega) (by show i + 1 ≤ a.size_; omega)
          (by show a.size_ - (i + 1) < fuel; omega)
        refine ⟨j1, a1, ?_, e2, e3, ?_, e5⟩
        · rw [delete_equal_loop, size_eq, if_pos hlt, hat, ok_bind, hw, ok_bind, if_pos hxw,
            has, ok_bind]
          exact e1
        · rw [e4]
          show (a.data_.set j x).length = _
          rw [List.length_set]
    · refine ⟨j, a, ?_, rfl, rfl, rfl, by omega⟩
      rw [delete_equal_loop, size_eq, if_neg hlt]

theorem delete_equal_frame [DecidableEq T] (a : dynamic_array T) (value : Ref T) (hwf : a.WF)
    (hr : a.in_block value) :
    ∃ a1, a.delete_equal value = .ok a1 ∧ a1.WF ∧ a1.capacity_ = a.capacity_ ∧
      a1.size_ ≤ a.size_ := by
  obtain ⟨h1, h2, h3⟩ := hwf
  have hv : ∀ s, value = .slot s → s < a.data_.length := by
    intro s hs
    rw [hs] at hr
    rw [h1]
    exact hr
  obtain ⟨j1, a1, e1, s1, c1, l1, b1⟩ := delete_equal_loop_frame value (a.size_ + 1) 0 0 a
    (by omega) hv (le_refl 0) (by omega) (by omega)
  refine ⟨{ data_ := a1.data_, capacity_ := a1.capacity_, size_ := j1 }, ?_, ⟨?_, ?_, ?_⟩,
    c1, b1⟩
  · unfold delete_equal
    rw [size_eq, e1, ok_bind]
  · show a1.data_.length = a1.capacity_
    omega
  · show j1 ≤ a1.capacity_
    omega
  · show a1.capacity_ < SIZE_MOD
    omega

/-! ## find_first and find_last -/

theorem at_eq_iff {a : dynamic_array T} {k : Nat} (v : T) (hlen : a.size_ ≤ a.data_.length)
    (hk : k < a.size_) : a.at_ k = .ok v ↔ a.data_[k]? = some v := by
  obtain ⟨x, hx, hat⟩ := at_ok hlen hk
  rw [hat, hx]
  constructor
  · intro h
    injection h with h
    rw [h]
  · intro h
    injection h with h
    rw [h]

theorem find_first_loop_spec [DecidableEq T] (a : dynamic_array T) (v : T)
    (hlen : a.size_ ≤ a.data_.length) :
    ∀ (fuel i : Nat), a.size_ - i < fuel →
      ∃ r, find_first_loop a v fuel i = .ok r ∧
        ((r = not_index ∧ ∀ k, i ≤ k → k < a.size_ → a.data_[k]? ≠ some v) ∨
          (i ≤ r ∧ r < a.size_ ∧ a.data_[r]? = some v ∧
            ∀ k, i ≤ k → k < r → a.data_[k]? ≠ some v)) := by
  intro fuel
  induction fuel with
  | zero => intro i h; omega
  | succ fuel ih =>
    intro i hfuel
    by_cases hlt : i < a.size_
    · obtain ⟨x, hx, hat⟩ := at_ok hlen hlt
      by_cases hxv : x = v
      · refine ⟨i, ?_, Or.inr ⟨le_refl i, hlt, by rw [hx, hxv], ?_⟩⟩
        · rw [find_first_loop, size_eq, if_pos hlt, hat, ok_bind, if_pos hxv]
        · intro k h1 h2
          omega
      · obtain ⟨r, e1, hr⟩ := ih (i + 1) (by omega)
        have hne : a.data_[i]? ≠ some v := by
          rw [hx]
          intro h
          injection h with h
          exact hxv h
        refine ⟨r, ?_, ?_⟩
        · rw [find_first_loop, size_eq, if_pos hlt, hat, ok_bind, if_neg hxv]
          exact e1
        · rcases hr with ⟨h1, h2⟩ | ⟨h1, h2, h3, h4⟩
          · refine Or.inl ⟨h1, ?_⟩
            intro k hk1 hk2
            by_cases hki : k = i
            · rw [hki]
              exact hne
            · exact h2 k (by omega) hk2
          · refine Or.inr ⟨by omega, h2, h3, ?_⟩
            intro k hk1 hk2
            by_cases hki : k = i
            · rw [hki]
              exact hne
            · exact h4 k (by omega) hk2
    · refine ⟨not_index, ?_, Or.inl ⟨rfl, ?_⟩⟩
      · rw [find_first_loop, size_eq, if_neg hlt]
      · intro k h1 h2
        omega

theorem find_last_loop_spec [DecidableEq T] (a : dynamic_array T) (v : T)
    (hlen : a.size_ ≤ a.data_.length) (hmod : a.size_ < SIZE_MOD) :
    ∀ (fuel m : Nat), m ≤ a.size_ → m < fuel →
      ∃ r, find_last_loop a v fuel (size_t_sub m 1) = .ok r ∧
        ((r = not_index ∧ ∀ k, k < m → a.data_[k]? ≠ some v) ∨
          (r < m ∧ a.data_[r]? = some v ∧ ∀ k, r < k → k < m → a.data_[k]? ≠ some v)) := by
  intro fuel
  induction fuel with
  | zero => intro m _ h; omega
  | succ fuel ih =>
    intro m hm hfuel
    by_cases hm0 : m = 0
    · refine ⟨not_index, ?_, Or.inl ⟨rfl, ?_⟩⟩
      · have hz : size_t_not not_index = 0 := by decide
        rw [hm0, size_t_sub_one_zero, find_last_loop, hz, if_neg (by decide)]
      · intro k hk
        omega
    · have hsub : size_t_sub m 1 = m - 1 := size_t_sub_one_pos (by omega) (by omega)
      have hnot : size_t_not (m - 1) ≠ 0 := by
        intro h
        have h2 := (size_t_not_eq_zero_iff (i := m - 1) (by omega)).mp h
        unfold not_index at h2
        omega
      obtain ⟨x, hx, hat⟩ := at_ok (i := m - 1) hlen (by omega)
      by_cases hxv : x = v
      · refine ⟨m - 1, ?_, Or.inr ⟨by omega, by rw [hx, hxv], ?_⟩⟩
        · rw [hsub, find_last_loop, if_pos hnot, hat, ok_bind, if_pos hxv]
        · intro k h1 h2
          omega
      · obtain ⟨r, e1, hr⟩ := ih (m - 1) (by omega) (by omega)
        have hne : a.data_[m - 1]? ≠ some v := by
          rw [hx]
          intro h
          injection h with h
          exact hxv h
        refine ⟨r, ?_, ?_⟩
        · rw [hsub, find_last_loop, if_pos hnot, hat, ok_bind, if_neg hxv]
          exact e1
        · rcases hr with ⟨h1, h2⟩ | ⟨h1, h2, h3⟩
          · refine Or.inl ⟨h1, ?_⟩
            intro k hk1
            by_cases hki : k = m - 1
            · rw [hki]
              exact hne
            · exact h2 k (by omega)
          · refine Or.inr ⟨by omega, h2, ?_⟩
            intro k hk1 hk2
            by_cases hki : k = m - 1
            · rw [hki]
              exact hne
            · exact h3 k hk1 (by omega)

theorem lt_not_index {a : dynamic_array T} (hwf : a.WF) {r : Nat} (h : r < a.size_) :
    r ≠ not_index := by
  obtain ⟨_, h2, h3⟩ := hwf
  unfold not_index
  unfold SIZE_MOD at *
  omega

/-! ## fill, resize, shrink, copy construction -/

theorem mk_sized_WF [Inhabited T] (n : Nat) (hn : n < SIZE_MOD) :
    (mk_sized n : dynamic_array T).WF := by
  refine ⟨?_, le_refl n, hn⟩
  show (List.replicate n default).length = n
  rw [List.length_replicate]

theorem elements_eq_of {a a1 : dynamic_array T} (hs : a1.size_ = a.size_)
    (hd : ∀ k, k < a.size_ → a1.data_[k]? = a.data_[k]?) : a1.elements = a.elements := by
  apply List.ext_getElem?
  intro k
  rw [elements_getElem?, elements_getElem?, hs]
  by_cases hk : k < a.size_
  · rw [if_pos hk, if_pos hk, hd k hk]
  · rw [if_neg hk, if_neg hk]

theorem fill_loop_spec (v : T) :
    ∀ (fuel i : Nat) (a : dynamic_array T), a.size_ ≤ a.data_.length → a.size_ - i < fuel →
      ∃ a1, fill_loop v fuel i a = .ok a1 ∧ a1.size_ = a.size_ ∧
        a1.capacity_ = a.capacity_ ∧ a1.data_.length = a.data_.length ∧
        ∀ k, a1.data_[k]? = if i ≤ k ∧ k < a.size_ then some v else a.data_[k]? := by
  intro fuel
  induction fuel with
  | zero => intro i a _ h; omega
  | succ fuel ih =>
    intro i a hlen hfuel
    by_cases hlt : i < a.size_
    · have has := at_assign_ok (i := i) hlen hlt v
      have hil : i < a.data_.length := by omega
      obtain ⟨a1, e1, e2, e3, e4, e5⟩ := ih (i + 1) { a with data_ := a.data_.set i v }
        (by show a.size_ ≤ (a.data_.set i v).length; rw [List.length_set]; exact hlen)
        (by show a.size_ - (i + 1) < fuel; omega)
      refine ⟨a1, ?_, e2, e3, ?_, ?_⟩
      · rw [fill_loop, size_eq, if_pos hlt, has, ok_bind]
        exact e1
      · rw [e4]
        show (a.data_.set i v).length = _
        rw [List.length_set]
      · intro k
        have e5k : a1.data_[k]? = if i + 1 ≤ k ∧ k < a.size_ then some v
            else (a.data_.set i v)[k]? := e5 k
        rw [e5k, getElem?_set_if hil]
        by_cases hk : k = i
        · rw [if_neg (by omega), if_pos hk, if_pos (by omega)]
        · by_cases c3 : i ≤ k ∧ k < a.size_
          · rw [if_pos (by omega), if_pos c3]
          · rw [if_neg (by omega), if_neg hk, if_neg c3]
    · refine ⟨a, ?_, rfl, rfl, rfl, ?_⟩
      · rw [fill_loop, size_eq, if_neg hlt]
      · intro k
        rw [if_neg (by omega)]

theorem fill_spec (a : dynamic_array T) (v : T) (hwf : a.WF) :
    ∃ a1, a.fill v = .ok a1 ∧ a1.WF ∧ a1.size_ = a.size_ ∧ a1.capacity_ = a.capacity_ ∧
      ∀ k, a1.data_[k]? = if k < a.size_ then some v else a.data_[k]? := by
  obtain ⟨h1, h2, h3⟩ := hwf
  obtain ⟨a1, e1, e2, e3, e4, e5⟩ := fill_loop_spec v (a.size_ + 1) 0 a (by omega) (by omega)
  refine ⟨a1, e1, ⟨by omega, by omega, by omega⟩, e2, e3, ?_⟩
  intro k
  rw [e5 k]
  by_cases hk : k < a.size_
  · rw [if_pos (by omega), if_pos hk]
  · rw [if_neg (by omega), if_neg hk]

theorem shrink_spec [Inhabited T] (a : dynamic_array T) (hwf : a.WF) :
    ∃ a1, a.shrink = .ok a1 ∧ a1.WF ∧ a1.capacity_ = a.size_ ∧ a1.size_ = a.size_ ∧
      a1.elements = a.elements := by
  have hs : a.size_ < SIZE_MOD := by
    obtain ⟨_, h2, h3⟩ := hwf
    omega
  obtain ⟨a1, e1, w1, c1, s1, _, d1⟩ := reallocate_spec a a.size_ hwf hs
  have s2 : a1.size_ = a.size_ := by omega
  exact ⟨a1, e1, w1, c1, s2, elements_eq_of s2 (fun k hk => d1 k (by omega))⟩

theorem resize_spec [Inhabited T] (a : dynamic_array T) (n : Nat) (hwf : a.WF)
    (hn : n < SIZE_MOD) :
    ∃ a1, a.resize n = .ok a1 ∧ a1.WF ∧ a1.size_ = n ∧
      a1.capacity_ = (if n > a.capacity_ then n else a.capacity_) ∧
      (n ≤ a.capacity_ → a1.data_ = a.data_) ∧
      ∀ k, k < a.size_ → k < n → a1.data_[k]? = a.data_[k]? := by
  by_cases hgt : n > a.capacity_
  · obtain ⟨a1, e1, ⟨w1, w2, w3⟩, c1, s1, _, d1⟩ := reallocate_spec a n hwf hn
    refine ⟨{ a1 with size_ := n }, ?_, ⟨w1, ?_, w3⟩, rfl, ?_, ?_, ?_⟩
    · unfold resize
      rw [capacity_eq, if_pos hgt, e1, ok_bind]
    · show n ≤ a1.capacity_
      omega
    · show a1.capacity_ = _
      rw [if_pos hgt, c1]
    · intro h
      omega
    · intro k hk1 hk2
      exact d1 k (by omega)
  · obtain ⟨h1, h2, h3⟩ := hwf
    refine ⟨{ a with size_ := n }, ?_, ⟨h1, ?_, h3⟩, rfl, ?_, fun _ => rfl, fun _ _ _ => rfl⟩
    · unfold resize
      rw [capacity_eq, if_neg hgt, ok_bind]
    · show n ≤ a.capacity_
      omega
    · show a.capacity_ = _
      rw [if_neg hgt]

theorem at_other_ok {a other : dynamic_array T} {i : Nat} {x : T}
    (h : other.at_ i = .ok x) : a.at_other other i = .ok x := by
  unfold at_other
  rw [h]

theorem copy_loop_spec [Inhabited T] (other : dynamic_array T)
    (hlen : other.size_ ≤ other.data_.length) (hsz : 2 * other.size_ ≤ SIZE_MOD) :
    ∀ (fuel i : Nat) (a : dynamic_array T), a.WF → a.size_ = i → i ≤ other.size_ →
      other.size_ - i < fuel →
      ∃ a1, copy_loop other fuel i a = .ok a1 ∧ a1.WF ∧ a1.size_ = other.size_ ∧
        a1.elements = a.elements ++ other.elements.drop i := by
  intro fuel
  induction fuel with
  | zero => intro i a _ _ _ h; omega
  | succ fuel ih =>
    intro i a hwf hsi hi hfuel
    by_cases hlt : i < other.size_
    · obtain ⟨x, hx, hat⟩ := at_ok hlen hlt
      have hcap := hwf.2.1
      obtain ⟨a1, e1, w1, s1, l1⟩ := push_back_elements a x hwf (by intro h; omega)
      obtain ⟨a2, e2, w2, s2, l2⟩ := ih (i + 1) a1 w1 (by omega) (by omega) (by omega)
      refine ⟨a2, ?_, w2, s2, ?_⟩
      · rw [copy_loop, size_eq, if_pos hlt, at_other_ok hat, ok_bind, e1, ok_bind]
        exact e2
      · rw [l2, l1, List.append_assoc]
        unfold elements
        rw [drop_take_cons hlt hx]
        rfl
    · have hi2 : i = other.size_ := by omega
      refine ⟨a, ?_, hwf, by omega, ?_⟩
      · rw [copy_loop, size_eq, if_neg hlt]
      · have hnil : List.drop i other.elements = [] := by
          apply List.drop_eq_nil_of_le
          rw [elements_length hlen]
          omega
        rw [hnil, List.append_nil]

theorem mk_copy_spec [Inhabited T] (other : dynamic_array T) (hwf : other.WF)
    (hsz : 2 * other.size_ ≤ SIZE_MOD) :
    ∃ a1, mk_copy other = .ok a1 ∧ a1.WF ∧ a1.size_ = other.size_ ∧
      a1.elements = other.elements := by
  have hlen : other.size_ ≤ other.data_.length := by
    obtain ⟨h1, h2, _⟩ := hwf
    omega
  obtain ⟨a1, e1, w1, s1, l1⟩ := copy_loop_spec other hlen hsz (other.size_ + 1) 0
    (mk_default : dynamic_array T).clear mk_default_WF rfl (by omega) (by omega)
  refine ⟨a1, e1, w1, s1, ?_⟩
  rw [l1, List.drop_zero]
  rfl

/-! ## Claims -/

/-- Calling `push_back` on a default-constructed array once per element of a list `vs`, in
order, each argument an object outside the array, returns an array with `size() == length vs`
whose `at(i)` is `vs[i]` for every `i < length vs`.  The list is short enough for the doubled
capacity to be a `size_t` value. -/
theorem push_back_all_size_at [Inhabited T] (vs : List T) (hlen : 2 * vs.length ≤ SIZE_MOD) :
    ∃ a, push_back_all (mk_default : dynamic_array T) vs = .ok a ∧ a.size = vs.length ∧
      ∀ (i : Nat) (hi : i < vs.length), a.at_ i = .ok vs[i] := by
  obtain ⟨a, e1, _, s1, l1⟩ := push_back_all_spec vs (mk_default : dynamic_array T)
    mk_default_WF (by
      show 2 * (0 + vs.length) ≤ SIZE_MOD
      omega)
  have s2 : a.size_ = vs.length := by
    rw [s1]
    show 0 + vs.length = vs.length
    omega
  refine ⟨a, e1, s2, ?_⟩
  intro i hi
  apply at_of_elements
  rw [l1]
  show (([] : List T) ++ vs)[i]? = _
  rw [List.nil_append, List.getElem?_eq_getElem hi]

/-- C1: after `push_back(5)` on a default-constructed array, `at(0)` is 5 and the array is full.
The call `push_back(at(0))`, whose argument has the value 5, does not return an array with
`at(1) == 5`: `reallocate` deletes the block the argument refers to (line 277) before line 200
reads the argument, so the value appended is read from deleted storage. -/
theorem push_back_own_element_dangles :
    ∃ a1 : dynamic_array Int,
      (mk_default : dynamic_array Int).push_back (.ext 5) = .ok a1 ∧
      a1.at_ 0 = .ok 5 ∧ a1.size = a1.capacity ∧
      a1.push_back (.slot 0) = .error (Fault.undefined, ⟨[5, 0], 2, 1⟩) :=
  ⟨⟨[5], 1, 1⟩, by decide⟩

/-- On an array with logical sequence `xs` and an index `i ≤ size()`, `insert_at(i, v)` with
an argument outside the array returns normally and leaves the logical sequence
`take i xs ++ [v] ++ drop i xs`, with `size()` one larger.  When the array is full, the doubled
capacity is a `size_t` value. -/
theorem insert_at_elements [Inhabited T] (a : dynamic_array T) (i : Nat) (v : T) (hwf : a.WF)
    (hgrow : a.size = a.capacity → 2 * a.capacity < SIZE_MOD) (hi : i ≤ a.size) :
    ∃ a1, a.insert_at i (.ext v) = .ok a1 ∧
      a1.elements = a.elements.take i ++ [v] ++ a.elements.drop i ∧ a1.size = a.size + 1 := by
  obtain ⟨a1, e1, _, s1, _, l1⟩ := insert_at_spec a i v hwf hgrow hi
  exact ⟨a1, e1, l1, s1⟩

/-- C2: on the array `[1, 2, 3]` of capacity 4, `at(1)` is 2, and the call
`insert_at(0, at(1))` returns with the logical sequence `[1, 1, 2, 3]`, not
`[] ++ [2] ++ [1, 2, 3]`: the shift loop overwrites the slot the argument refers to before
line 191 reads the argument. -/
theorem insert_at_own_element :
    (⟨[1, 2, 3, 0], 4, 3⟩ : dynamic_array Int).at_ 1 = .ok 2 ∧
    ∃ a1, (⟨[1, 2, 3, 0], 4, 3⟩ : dynamic_array Int).insert_at 0 (.slot 1) = .ok a1 ∧
      a1.elements = [1, 1, 2, 3] ∧
      a1.elements ≠ (⟨[1, 2, 3, 0], 4, 3⟩ : dynamic_array Int).elements.take 0 ++ [2] ++
        (⟨[1, 2, 3, 0], 4, 3⟩ : dynamic_array Int).elements.drop 0 :=
  ⟨by decide, ⟨[1, 1, 2, 3], 4, 4⟩, by decide⟩

/-- C3: on an array with logical sequence `xs` and an index `i < size()`, `delete_at(i)`
returns normally and leaves `xs` with the element at position `i` removed, the other elements
in their order, with `size()` one smaller. -/
theorem delete_at_elements (a : dynamic_array T) (i : Nat) (hwf : a.WF) (hi : i < a.size) :
    ∃ a1, a.delete_at i = .ok a1 ∧ a1.elements = a.elements.eraseIdx i ∧
      a1.size + 1 = a.size := by
  obtain ⟨a1, e1, _, s1, _, l1⟩ := delete_at_spec a i hwf hi
  refine ⟨a1, e1, l1, ?_⟩
  show a1.size_ + 1 = a.size_
  have : i < a.size_ := hi
  omega

theorem delete_at_elements_witness :
    ((⟨[1, 2, 3, 0], 4, 3⟩ : dynamic_array Nat).WF ∧
      1 < (⟨[1, 2, 3, 0], 4, 3⟩ : dynamic_array Nat).size) ∧
    ∃ a1, (⟨[1, 2, 3, 0], 4, 3⟩ : dynamic_array Nat).delete_at 1 = .ok a1 ∧
      a1.elements = (⟨[1, 2, 3, 0], 4, 3⟩ : dynamic_array Nat).elements.eraseIdx 1 ∧
      a1.size + 1 = (⟨[1, 2, 3, 0], 4, 3⟩ : dynamic_array Nat).size :=
  ⟨⟨by decide, by decide⟩, delete_at_elements ⟨[1, 2, 3, 0], 4, 3⟩ 1 (by decide) (by decide)⟩

/-- On an array with logical sequence `xs`, `delete_equal(v)` with an argument outside the
array returns normally and leaves the logical sequence `xs` filtered to the elements different
from `v`, in their order, with `size()` the number of such elements; when no element of `xs`
equals `v` the array (block, size and capacity) is unchanged. -/
theorem delete_equal_elements [DecidableEq T] (a : dynamic_array T) (v : T) (hwf : a.WF) :
    ∃ a1, a.delete_equal (.ext v) = .ok a1 ∧
      a1.elements = a.elements.filter (fun x => decide (x ≠ v)) ∧
      a1.size = (a.elements.filter (fun x => decide (x ≠ v))).length ∧
      ((∀ x ∈ a.elements, x ≠ v) → a1 = a) := by
  obtain ⟨a1, e1, ⟨w1, w2, _⟩, _, l1, n1⟩ := delete_equal_spec a v hwf
  refine ⟨a1, e1, l1, ?_, n1⟩
  rw [← l1, elements_length (by omega)]
  rfl

/-- C5: on the array `[3, 1, 3, 2]`, `at(0)` is 3, and the call `delete_equal(at(0))` returns
with the logical sequence `[1, 3, 2]` and `size() == 3`, not the sequence `[1, 2]` of the
elements different from 3: the first compaction write (line 221) changes the slot the argument
refers to, so the later comparisons are against 1. -/
theorem delete_equal_own_element :
    (⟨[3, 1, 3, 2], 4, 4⟩ : dynamic_array Int).at_ 0 = .ok 3 ∧
    ∃ a1, (⟨[3, 1, 3, 2], 4, 4⟩ : dynamic_array Int).delete_equal (.slot 0) = .ok a1 ∧
      a1.elements = [1, 3, 2] ∧ a1.size = 3 ∧
      a1.elements ≠ (⟨[3, 1, 3, 2], 4, 4⟩ : dynamic_array Int).elements.filter
        (fun x => decide (x ≠ 3)) :=
  ⟨by decide, ⟨[1, 3, 2, 2], 4, 3⟩, by decide⟩

/-- C6: `find_first(v)` returns normally; the result is `not_index` if and only if no index
below `size()` holds `v`, and otherwise it is the smallest index below `size()` that holds
`v`. -/
theorem find_first_spec [DecidableEq T] (a : dynamic_array T) (v : T) (hwf : a.WF) :
    ∃ r, a.find_first v = .ok r ∧
      (r = not_index ↔ ∀ i, i < a.size → a.at_ i ≠ .ok v) ∧
      (r ≠ not_index → r < a.size ∧ a.at_ r = .ok v ∧ ∀ j, j < r → a.at_ j ≠ .ok v) := by
  have hlen : a.size_ ≤ a.data_.length := by
    obtain ⟨h1, h2, _⟩ := hwf
    omega
  obtain ⟨r, e1, hr⟩ := find_first_loop_spec a v hlen (a.size_ + 1) 0 (by omega)
  refine ⟨r, e1, ?_⟩
  rcases hr with ⟨h1, h2⟩ | ⟨_, h2, h3, h4⟩
  · refine ⟨⟨?_, fun _ => h1⟩, fun h => absurd h1 h⟩
    intro _ i hi hat
    exact h2 i (Nat.zero_le i) hi ((at_eq_iff v hlen hi).mp hat)
  · have hne : r ≠ not_index := lt_not_index hwf h2
    have hat : a.at_ r = .ok v := (at_eq_iff v hlen h2).mpr h3
    refine ⟨⟨fun h => absurd h hne, fun h => absurd hat (h r h2)⟩, fun _ => ⟨h2, hat, ?_⟩⟩
    intro j hj hatj
    exact h4 j (Nat.zero_le j) hj ((at_eq_iff v hlen (by omega)).mp hatj)

theorem find_first_spec_witness :
    (⟨[7, 4, 7, 4], 4, 3⟩ : dynamic_array Nat).WF ∧
    ∃ r, (⟨[7, 4, 7, 4], 4, 3⟩ : dynamic_array Nat).find_first 4 = .ok r ∧
      (r = not_index ↔ ∀ i, i < (⟨[7, 4, 7, 4], 4, 3⟩ : dynamic_array Nat).size →
        (⟨[7, 4, 7, 4], 4, 3⟩ : dynamic_array Nat).at_ i ≠ .ok 4) ∧
      (r ≠ not_index → r < (⟨[7, 4, 7, 4], 4, 3⟩ : dynamic_array Nat).size ∧
        (⟨[7, 4, 7, 4], 4, 3⟩ : dynamic_array Nat).at_ r = .ok 4 ∧
        ∀ j, j < r → (⟨[7, 4, 7, 4], 4, 3⟩ : dynamic_array Nat).at_ j ≠ .ok 4) :=
  ⟨by decide, find_first_spec ⟨[7, 4, 7, 4], 4, 3⟩ 4 (by decide)⟩

/-- C7: `find_last(v)` returns normally, so no access of the scan is out of range; the result
is `not_index` if and only if no index below `size()` holds `v`, and otherwise it is the
largest index below `size()` that holds `v`.  On an array with `size() == 0` the scan index
starts at `size() - 1 = not_index` and the call returns `not_index` at once. -/
theorem find_last_spec [DecidableEq T] (a : dynamic_array T) (v : T) (hwf : a.WF) :
    ∃ r, a.find_last v = .ok r ∧
      (r = not_index ↔ ∀ i, i < a.size → a.at_ i ≠ .ok v) ∧
      (r ≠ not_index →
        r < a.size ∧ a.at_ r = .ok v ∧ ∀ j, r < j → j < a.size → a.at_ j ≠ .ok v) ∧
      (a.size = 0 → size_t_sub a.size 1 = not_index ∧ r = not_index) := by
  have hlen : a.size_ ≤ a.data_.length := by
    obtain ⟨h1, h2, _⟩ := hwf
    omega
  have hmod : a.size_ < SIZE_MOD := by
    obtain ⟨_, h2, h3⟩ := hwf
    omega
  obtain ⟨r, e1, hr⟩ := find_last_loop_spec a v hlen hmod (a.size_ + 1) a.size_ (le_refl _)
    (by omega)
  refine ⟨r, e1, ?_⟩
  rcases hr with ⟨h1, h2⟩ | ⟨h2, h3, h4⟩
  · refine ⟨⟨?_, fun _ => h1⟩, fun h => absurd h1 h, ?_⟩
    · intro _ i hi hat
      exact h2 i hi ((at_eq_iff v hlen hi).mp hat)
    · intro h0
      have h0' : a.size_ = 0 := h0
      rw [size_eq, h0']
      exact ⟨size_t_sub_one_zero, h1⟩
  · have hne : r ≠ not_index := lt_not_index hwf h2
    have hat : a.at_ r = .ok v := (at_eq_iff v hlen h2).mpr h3
    refine ⟨⟨fun h => absurd h hne, fun h => absurd hat (h r h2)⟩, fun _ => ⟨h2, hat, ?_⟩, ?_⟩
    · intro j hj1 hj2 hatj
      exact h4 j hj1 hj2 ((at_eq_iff v hlen hj2).mp hatj)
    · intro h0
      have h0' : a.size_ = 0 := h0
      omega

theorem find_last_spec_witness :
    (⟨[7, 4, 7, 4], 4, 3⟩ : dynamic_array Nat).WF ∧
    ∃ r, (⟨[7, 4, 7, 4], 4, 3⟩ : dynamic_array Nat).find_last 7 = .ok r ∧
      (r = not_index ↔ ∀ i, i < (⟨[7, 4, 7, 4], 4, 3⟩ : dynamic_array Nat).size →
        (⟨[7, 4, 7, 4], 4, 3⟩ : dynamic_array Nat).at_ i ≠ .ok 7) ∧
      (r ≠ not_index → r < (⟨[7, 4, 7, 4], 4, 3⟩ : dynamic_array Nat).size ∧
        (⟨[7, 4, 7, 4], 4, 3⟩ : dynamic_array Nat).at_ r = .ok 7 ∧
        ∀ j, r < j → j < (⟨[7, 4, 7, 4], 4, 3⟩ : dynamic_array Nat).size →
          (⟨[7, 4, 7, 4], 4, 3⟩ : dynamic_array Nat).at_ j ≠ .ok 7) ∧
      ((⟨[7, 4, 7, 4], 4, 3⟩ : dynamic_array Nat).size = 0 →
        size_t_sub (⟨[7, 4, 7, 4], 4, 3⟩ : dynamic_array Nat).size 1 = not_index ∧
          r = not_index) :=
  ⟨by decide, find_last_spec ⟨[7, 4, 7, 4], 4, 3⟩ 7 (by decide)⟩

/-- C10: `shrink()` returns with `capacity() == size()`, and leaves the logical sequence and
`size()` as they were. -/
theorem shrink_capacity_eq_size [Inhabited T] (a : dynamic_array T) (hwf : a.WF) :
    ∃ a1, a.shrink = .ok a1 ∧ a1.capacity = a1.size ∧ a1.elements = a.elements ∧
      a1.size = a.size := by
  obtain ⟨a1, e1, _, c1, s1, l1⟩ := shrink_spec a hwf
  refine ⟨a1, e1, ?_, l1, s1⟩
  show a1.capacity_ = a1.size_
  rw [c1, s1]

theorem shrink_capacity_eq_size_witness :
    (⟨[1, 9, 3, 0], 4, 3⟩ : dynamic_array Nat).WF ∧
    ∃ a1, (⟨[1, 9, 3, 0], 4, 3⟩ : dynamic_array Nat).shrink = .ok a1 ∧
      a1.capacity = a1.size ∧
      a1.elements = (⟨[1, 9, 3, 0], 4, 3⟩ : dynamic_array Nat).elements ∧
      a1.size = (⟨[1, 9, 3, 0], 4, 3⟩ : dynamic_array Nat).size :=
  ⟨by decide, shrink_capacity_eq_size ⟨[1, 9, 3, 0], 4, 3⟩ (by decide)⟩

/-! ## Claims on resize, assignment and copy construction -/

theorem take_elements_of {a a1 : dynamic_array T} {n : Nat} (hs : a1.size_ = n)
    (hd : ∀ k, k < a.size_ → k < n → a1.data_[k]? = a.data_[k]?) :
    a1.elements.take a.size_ = a.elements.take n := by
  apply List.ext_getElem?
  intro k
  rw [List.getElem?_take, List.getElem?_take, elements_getElem?, elements_getElem?, hs]
  by_cases hk : k < a.size_
  · by_cases hk2 : k < n
    · rw [if_pos hk, if_pos hk2, if_pos hk2, if_pos hk, hd k hk hk2]
    · rw [if_pos hk, if_neg hk2, if_neg hk2]
  · by_cases hk2 : k < n
    · rw [if_neg hk, if_pos hk2, if_neg hk]
    · rw [if_neg hk, if_neg hk2]

/-- C11: on an array with logical sequence `xs`, `resize(n)` returns.  If `n ≤ size()` the
logical sequence becomes the first `n` elements of `xs` and `size() == n`.  If `n > capacity()`
then `size() == n`, `capacity() ≥ n`, and the elements at the indices below the old size are
those of `xs`.  The argument `n` is a `size_t` value. -/
theorem resize_elements [Inhabited T] (a : dynamic_array T) (n : Nat) (hwf : a.WF)
    (hn : n < SIZE_MOD) :
    ∃ a1, a.resize n = .ok a1 ∧
      (n ≤ a.size → a1.elements = a.elements.take n ∧ a1.size = n) ∧
      (n > a.capacity →
        a1.size = n ∧ a1.capacity ≥ n ∧ a1.elements.take a.size = a.elements) := by
  obtain ⟨a1, e1, _, s1, c1, _, d1⟩ := resize_spec a n hwf hn
  have hcap : a.size_ ≤ a.capacity_ := hwf.2.1
  have hl : a.size_ ≤ a.data_.length := by
    obtain ⟨h1, h2, _⟩ := hwf
    omega
  have ht := take_elements_of s1 d1
  refine ⟨a1, e1, ?_, ?_⟩
  · intro h
    have h1 : n ≤ a.size_ := h
    refine ⟨?_, s1⟩
    rw [← ht]
    apply (List.take_of_length_le _).symm
    unfold elements
    rw [List.length_take]
    omega
  · intro h
    have h1 : n > a.capacity_ := h
    refine ⟨s1, ?_, ?_⟩
    · show a1.capacity_ ≥ n
      rw [c1, if_pos h1]
    · rw [size_eq, ht]
      apply List.take_of_length_le
      rw [elements_length hl]
      omega

theorem resize_elements_witness :
    ((⟨[1, 2, 3, 0], 4, 3⟩ : dynamic_array Nat).WF ∧ 6 < SIZE_MOD) ∧
    ∃ a1, (⟨[1, 2, 3, 0], 4, 3⟩ : dynamic_array Nat).resize 6 = .ok a1 ∧
      (6 ≤ (⟨[1, 2, 3, 0], 4, 3⟩ : dynamic_array Nat).size →
        a1.elements = (⟨[1, 2, 3, 0], 4, 3⟩ : dynamic_array Nat).elements.take 6 ∧
          a1.size = 6) ∧
      (6 > (⟨[1, 2, 3, 0], 4, 3⟩ : dynamic_array Nat).capacity →
        a1.size = 6 ∧ a1.capacity ≥ 6 ∧
          a1.elements.take (⟨[1, 2, 3, 0], 4, 3⟩ : dynamic_array Nat).size =
            (⟨[1, 2, 3, 0], 4, 3⟩ : dynamic_array Nat).elements) :=
  ⟨⟨by decide, by decide⟩, resize_elements ⟨[1, 2, 3, 0], 4, 3⟩ 6 (by decide) (by decide)⟩

theorem assign_spec [Inhabited T] (a other : dynamic_array T) (hwf : other.WF)
    (hsz : 2 * other.size_ ≤ SIZE_MOD) : a.assign other = .ok a := by
  obtain ⟨c, e1, _⟩ := mk_copy_spec other hwf hsz
  unfold assign
  rw [e1]

/-- C12: the assignment `a = b` with `a = [1, 2]` and `b = [7, 8, 9]` returns with `a` still
holding `[1, 2]` and `size() == 2`: the body of `operator=` builds a copy of `b` and discards
it, so the logical sequence of `a` differs from that of `b` after the call. -/
theorem assign_leaves_target :
    ∃ a1, (⟨[1, 2], 2, 2⟩ : dynamic_array Int).assign ⟨[7, 8, 9, 0], 4, 3⟩ = .ok a1 ∧
      a1.elements = [1, 2] ∧ a1.size = 2 ∧
      a1.elements ≠ (⟨[7, 8, 9, 0], 4, 3⟩ : dynamic_array Int).elements ∧
      a1.size ≠ (⟨[7, 8, 9, 0], 4, 3⟩ : dynamic_array Int).size :=
  ⟨⟨[1, 2], 2, 2⟩, by decide⟩

/-- C13: the copy constructor returns an array with the `size()` of the source, with `at(i)`
equal to the `at(i)` of the source for every `i < size()`, and with `capacity() ≥ size()`,
whatever the capacity of the source.  The doubled size of the source is a `size_t` value. -/
theorem mk_copy_size_at [Inhabited T] (other : dynamic_array T) (hwf : other.WF)
    (hsz : 2 * other.size ≤ SIZE_MOD) :
    ∃ c, mk_copy other = .ok c ∧ c.size = other.size ∧
      (∀ i, i < other.size → ∃ x, other.at_ i = .ok x ∧ c.at_ i = .ok x) ∧
      c.capacity ≥ c.size := by
  obtain ⟨c, e1, ⟨_, w2, _⟩, s1, l1⟩ := mk_copy_spec other hwf hsz
  have hlen : other.size_ ≤ other.data_.length := by
    obtain ⟨h1, h2, _⟩ := hwf
    omega
  refine ⟨c, e1, s1, ?_, w2⟩
  intro i hi
  have hi1 : i < other.size_ := hi
  obtain ⟨x, hx, hat⟩ := at_ok hlen hi1
  refine ⟨x, hat, ?_⟩
  apply at_of_elements
  rw [l1, elements_getElem?, if_pos hi1, hx]

theorem mk_copy_size_at_witness :
    ((⟨[4, 5, 6, 0, 0, 0, 0], 7, 3⟩ : dynamic_array Nat).WF ∧
      2 * (⟨[4, 5, 6, 0, 0, 0, 0], 7, 3⟩ : dynamic_array Nat).size ≤ SIZE_MOD) ∧
    ∃ c, mk_copy (⟨[4, 5, 6, 0, 0, 0, 0], 7, 3⟩ : dynamic_array Nat) = .ok c ∧
      c.size = (⟨[4, 5, 6, 0, 0, 0, 0], 7, 3⟩ : dynamic_array Nat).size ∧
      (∀ i, i < (⟨[4, 5, 6, 0, 0, 0, 0], 7, 3⟩ : dynamic_array Nat).size →
        ∃ x, (⟨[4, 5, 6, 0, 0, 0, 0], 7, 3⟩ : dynamic_array Nat).at_ i = .ok x ∧
          c.at_ i = .ok x) ∧
      c.capacity ≥ c.size :=
  ⟨⟨by decide, by decide⟩, mk_copy_size_at ⟨[4, 5, 6, 0, 0, 0, 0], 7, 3⟩ (by decide) (by decide)⟩

/-! ## Claims on failures -/

theorem fails_iff_of {R : Type} {r : Res T R} {a : dynamic_array T} {c : Prop}
    (h1 : c → r = .error (Fault.out_of_range, a)) (h2 : ¬ c → ∃ x, r = .ok x) :
    ((∃ e, r = .error e) ↔ c) ∧ ∀ e, r = .error e → e = (Fault.out_of_range, a) := by
  by_cases hc : c
  · have hr := h1 hc
    refine ⟨⟨fun _ => hc, fun _ => ⟨_, hr⟩⟩, ?_⟩
    intro e he
    rw [hr] at he
    injection he with he
    exact he.symm
  · obtain ⟨x, hx⟩ := h2 hc
    refine ⟨⟨?_, fun h => absurd h hc⟩, ?_⟩
    · intro h
      obtain ⟨e, he⟩ := h
      rw [hx] at he
      exact Except.noConfusion he
    · intro e he
      rw [hx] at he
      exact Except.noConfusion he

theorem at_fail {a : dynamic_array T} {i : Nat} (hi : i ≥ a.size_) :
    a.at_ i = .error (Fault.out_of_range, a) := by
  unfold at_
  rw [size_eq, if_pos hi]

theorem at_assign_fail {a : dynamic_array T} {i : Nat} (hi : i ≥ a.size_) (v : T) :
    a.at_assign i v = .error (Fault.out_of_range, a) := by
  unfold at_assign
  rw [size_eq, if_pos hi]

theorem at_elements {a : dynamic_array T} {i : Nat} (hlen : a.size_ ≤ a.data_.length)
    (hi : i < a.size_) : ∃ x, a.elements[i]? = some x ∧ a.at_ i = .ok x := by
  obtain ⟨x, hx, hat⟩ := at_ok hlen hi
  refine ⟨x, ?_, hat⟩
  rw [elements_getElem?, if_pos hi, hx]

/-- C14: `at(index)` raises `out_of_range`, leaving the array as it was, if and only if
`index ≥ size()`, and otherwise returns the element at position `index` of the logical
sequence; the same test guards the write through `at(index)`.  In particular `at(size())`
fails on every array, and `at(0)` fails on an empty one. -/
theorem at_out_of_range_iff (a : dynamic_array T) (index : Nat) (v : T) (hwf : a.WF) :
    (((∃ e, a.at_ index = .error e) ↔ index ≥ a.size) ∧
      ∀ e, a.at_ index = .error e → e = (Fault.out_of_range, a)) ∧
    (index < a.size → ∃ x, a.elements[index]? = some x ∧ a.at_ index = .ok x) ∧
    (((∃ e, a.at_assign index v = .error e) ↔ index ≥ a.size) ∧
      ∀ e, a.at_assign index v = .error e → e = (Fault.out_of_range, a)) ∧
    a.at_ a.size = .error (Fault.out_of_range, a) ∧
    (a.size = 0 → a.at_ 0 = .error (Fault.out_of_range, a)) := by
  have hlen : a.size_ ≤ a.data_.length := by
    obtain ⟨h1, h2, _⟩ := hwf
    omega
  refine ⟨?_, ?_, ?_, ?_, ?_⟩
  · apply fails_iff_of
    · intro h
      exact at_fail h
    · intro h
      have h1 : index < a.size_ := Nat.lt_of_not_le h
      obtain ⟨x, _, hat⟩ := at_ok hlen h1
      exact ⟨x, hat⟩
  · intro h
    exact at_elements hlen h
  · apply fails_iff_of
    · intro h
      exact at_assign_fail h v
    · intro h
      have h1 : index < a.size_ := Nat.lt_of_not_le h
      exact ⟨_, at_assign_ok hlen h1 v⟩
  · exact at_fail (le_refl _)
  · intro h
    have h0 : a.size_ = 0 := h
    exact at_fail (by omega)

theorem at_out_of_range_iff_witness :
    (⟨[3, 5, 0], 3, 2⟩ : dynamic_array Nat).WF ∧
    ((((∃ e, (⟨[3, 5, 0], 3, 2⟩ : dynamic_array Nat).at_ 2 = .error e) ↔
        2 ≥ (⟨[3, 5, 0], 3, 2⟩ : dynamic_array Nat).size) ∧
      ∀ e, (⟨[3, 5, 0], 3, 2⟩ : dynamic_array Nat).at_ 2 = .error e →
        e = (Fault.out_of_range, ⟨[3, 5, 0], 3, 2⟩)) ∧
    (2 < (⟨[3, 5, 0], 3, 2⟩ : dynamic_array Nat).size →
      ∃ x, (⟨[3, 5, 0], 3, 2⟩ : dynamic_array Nat).elements[2]? = some x ∧
        (⟨[3, 5, 0], 3, 2⟩ : dynamic_array Nat).at_ 2 = .ok x) ∧
    (((∃ e, (⟨[3, 5, 0], 3, 2⟩ : dynamic_array Nat).at_assign 2 7 = .error e) ↔
        2 ≥ (⟨[3, 5, 0], 3, 2⟩ : dynamic_array Nat).size) ∧
      ∀ e, (⟨[3, 5, 0], 3, 2⟩ : dynamic_array Nat).at_assign 2 7 = .error e →
        e = (Fault.out_of_range, ⟨[3, 5, 0], 3, 2⟩)) ∧
    (⟨[3, 5, 0], 3, 2⟩ : dynamic_array Nat).at_ (⟨[3, 5, 0], 3, 2⟩ : dynamic_array Nat).size =
      .error (Fault.out_of_range, ⟨[3, 5, 0], 3, 2⟩) ∧
    ((⟨[3, 5, 0], 3, 2⟩ : dynamic_array Nat).size = 0 →
      (⟨[3, 5, 0], 3, 2⟩ : dynamic_array Nat).at_ 0 =
        .error (Fault.out_of_range, ⟨[3, 5, 0], 3, 2⟩))) :=
  ⟨by decide, at_out_of_range_iff ⟨[3, 5, 0], 3, 2⟩ 2 7 (by decide)⟩

theorem empty_iff (a : dynamic_array T) : a.empty = true ↔ a.size_ = 0 := by
  unfold empty
  rw [size_eq]
  exact beq_iff_eq

/-- C16: `pop_back()` raises `out_of_range` if and only if `size() == 0`, and then leaves the
array as it was, `size()` still 0; on a non-empty array with logical sequence `xs` it returns
and leaves `xs` without its last element, `capacity()` unchanged.  `front()` and `back()` fail
if and only if the array is empty, and otherwise return the first and the last element of
`xs`. -/
theorem empty_failures (a : dynamic_array T) (hwf : a.WF) :
    (((∃ e, a.pop_back = .error e) ↔ a.size = 0) ∧
      ∀ e, a.pop_back = .error e → e = (Fault.out_of_range, a)) ∧
    (a.size ≠ 0 → ∃ a1, a.pop_back = .ok a1 ∧ a1.elements = a.elements.dropLast ∧
      a1.size + 1 = a.size ∧ a1.capacity = a.capacity) ∧
    (((∃ e, a.front = .error e) ↔ a.size = 0) ∧
      ∀ e, a.front = .error e → e = (Fault.out_of_range, a)) ∧
    (a.size ≠ 0 → ∃ x, a.front = .ok x ∧ a.elements.head? = some x) ∧
    (((∃ e, a.back = .error e) ↔ a.size = 0) ∧
      ∀ e, a.back = .error e → e = (Fault.out_of_range, a)) ∧
    (a.size ≠ 0 → ∃ x, a.back = .ok x ∧ a.elements.getLast? = some x) := by
  have hlen : a.size_ ≤ a.data_.length := by
    obtain ⟨h1, h2, _⟩ := hwf
    omega
  have hpop : a.size_ ≠ 0 → a.pop_back = .ok { a with size_ := a.size_ - 1 } := by
    intro h
    unfold pop_back
    rw [if_neg (fun he => h ((empty_iff a).mp he))]
  have hfront : a.size_ ≠ 0 → ∃ x, a.front = .ok x ∧ a.elements.head? = some x := by
    intro h
    have h0 : 0 < a.size_ := Nat.pos_of_ne_zero h
    obtain ⟨x, hx, _⟩ := at_ok hlen h0
    refine ⟨x, ?_, ?_⟩
    · unfold front
      rw [if_neg (fun he => h ((empty_iff a).mp he))]
      exact load_ok hx
    · rw [List.head?_eq_getElem?, elements_getElem?, if_pos h0, hx]
  have hback : a.size_ ≠ 0 → ∃ x, a.back = .ok x ∧ a.elements.getLast? = some x := by
    intro h
    have h0 : a.size_ - 1 < a.size_ := by omega
    obtain ⟨x, hx, _⟩ := at_ok hlen h0
    refine ⟨x, ?_, ?_⟩
    · unfold back
      rw [if_neg (fun he => h ((empty_iff a).mp he)), size_eq]
      exact load_ok hx
    · rw [List.getLast?_eq_getElem?, elements_length hlen, elements_getElem?, if_pos h0, hx]
  refine ⟨?_, ?_, ?_, hfront, ?_, hback⟩
  · apply fails_iff_of
    · intro h
      unfold pop_back
      rw [if_pos ((empty_iff a).mpr h)]
    · intro h
      exact ⟨_, hpop h⟩
  · intro h
    have h1 : a.size_ ≠ 0 := h
    refine ⟨_, hpop h1, ?_, ?_, rfl⟩
    · show a.data_.take (a.size_ - 1) = _
      rw [List.dropLast_eq_take, elements_length hlen]
      unfold elements
      rw [List.take_take]
      congr 1
      omega
    · show a.size_ - 1 + 1 = a.size_
      omega
  · apply fails_iff_of
    · intro h
      unfold front
      rw [if_pos ((empty_iff a).mpr h)]
    · intro h
      obtain ⟨x, hx, _⟩ := hfront h
      exact ⟨x, hx⟩
  · apply fails_iff_of
    · intro h
      unfold back
      rw [if_pos ((empty_iff a).mpr h)]
    · intro h
      obtain ⟨x, hx, _⟩ := hback h
      exact ⟨x, hx⟩

theorem empty_failures_witness :
    (⟨[3, 5, 0], 3, 2⟩ : dynamic_array Nat).WF ∧
    ((((∃ e, (⟨[3, 5, 0], 3, 2⟩ : dynamic_array Nat).pop_back = .error e) ↔
        (⟨[3, 5, 0], 3, 2⟩ : dynamic_array Nat).size = 0) ∧
      ∀ e, (⟨[3, 5, 0], 3, 2⟩ : dynamic_array Nat).pop_back = .error e →
        e = (Fault.out_of_range, ⟨[3, 5, 0], 3, 2⟩)) ∧
    ((⟨[3, 5, 0], 3, 2⟩ : dynamic_array Nat).size ≠ 0 →
      ∃ a1, (⟨[3, 5, 0], 3, 2⟩ : dynamic_array Nat).pop_back = .ok a1 ∧
        a1.elements = (⟨[3, 5, 0], 3, 2⟩ : dynamic_array Nat).elements.dropLast ∧
        a1.size + 1 = (⟨[3, 5, 0], 3, 2⟩ : dynamic_array Nat).size ∧
        a1.capacity = (⟨[3, 5, 0], 3, 2⟩ : dynamic_array Nat).capacity) ∧
    (((∃ e, (⟨[3, 5, 0], 3, 2⟩ : dynamic_array Nat).front = .error e) ↔
        (⟨[3, 5, 0], 3, 2⟩ : dynamic_array Nat).size = 0) ∧
      ∀ e, (⟨[3, 5, 0], 3, 2⟩ : dynamic_array Nat).front = .error e →
        e = (Fault.out_of_range, ⟨[3, 5, 0], 3, 2⟩)) ∧
    ((⟨[3, 5, 0], 3, 2⟩ : dynamic_array Nat).size ≠ 0 →
      ∃ x, (⟨[3, 5, 0], 3, 2⟩ : dynamic_array Nat).front = .ok x ∧
        (⟨[3, 5, 0], 3, 2⟩ : dynamic_array Nat).elements.head? = some x) ∧
    (((∃ e, (⟨[3, 5, 0], 3, 2⟩ : dynamic_array Nat).back = .error e) ↔
        (⟨[3, 5, 0], 3, 2⟩ : dynamic_array Nat).size = 0) ∧
      ∀ e, (⟨[3, 5, 0], 3, 2⟩ : dynamic_array Nat).back = .error e →
        e = (Fault.out_of_range, ⟨[3, 5, 0], 3, 2⟩)) ∧
    ((⟨[3, 5, 0], 3, 2⟩ : dynamic_array Nat).size ≠ 0 →
      ∃ x, (⟨[3, 5, 0], 3, 2⟩ : dynamic_array Nat).back = .ok x ∧
        (⟨[3, 5, 0], 3, 2⟩ : dynamic_array Nat).elements.getLast? = some x)) :=
  ⟨by decide, empty_failures ⟨[3, 5, 0], 3, 2⟩ (by decide)⟩

/-! ## Claims on capacity -/

theorem state_after_ok (a : dynamic_array T) :
    state_after (.ok a : Res T (dynamic_array T)) = a := rfl

theorem state_after_error (f : Fault) (a : dynamic_array T) :
    state_after (.error (f, a) : Res T (dynamic_array T)) = a := rfl

/-- C18: on an array of integers, starting from the default-constructed array,
`push_back(1)`, `push_back(2)`, `push_back(3)` give `size() == 3` and the elements `[1, 2, 3]`;
then `delete_at(1)` gives `[1, 3]`; then `insert_at(1, 9)` gives `[1, 9, 3]`; then
`find_first(9) == 1` and `find_first(42) == not_index`; then `shrink()` gives
`capacity() == 3`. -/
theorem scenario_push_delete_insert_find_shrink :
    ∃ a1 a2 a3 a4 a5 a6 : dynamic_array Int,
      (mk_default : dynamic_array Int).push_back (.ext 1) = .ok a1 ∧
      a1.push_back (.ext 2) = .ok a2 ∧
      a2.push_back (.ext 3) = .ok a3 ∧ a3.size = 3 ∧ a3.elements = [1, 2, 3] ∧
      a3.at_ 0 = .ok 1 ∧ a3.at_ 1 = .ok 2 ∧ a3.at_ 2 = .ok 3 ∧
      a3.delete_at 1 = .ok a4 ∧ a4.elements = [1, 3] ∧
      a4.insert_at 1 (.ext 9) = .ok a5 ∧ a5.elements = [1, 9, 3] ∧
      a5.find_first 9 = .ok 1 ∧
      a5.find_first 42 = .ok not_index ∧
      a5.shrink = .ok a6 ∧ a6.capacity = 3 := by
  refine ⟨⟨[1], 1, 1⟩, ⟨[1, 2], 2, 2⟩, ⟨[1, 2, 3, 0], 4, 3⟩, ⟨[1, 3, 3, 0], 4, 2⟩,
    ⟨[1, 9, 3, 0], 4, 3⟩, ⟨[1, 9, 3], 3, 3⟩, ?_⟩
  split_ands <;> decide

theorem pow2_least {n k j : Nat} (h2 : 2 ^ k < 2 * n) (h3 : n ≤ 2 ^ j) : 2 ^ k ≤ 2 ^ j := by
  by_contra hc
  have hlt : 2 ^ j < 2 ^ k := Nat.lt_of_not_le hc
  have hjk : j < k := (Nat.pow_lt_pow_iff_right (by decide)).mp hlt
  have h4 : 2 ^ (j + 1) ≤ 2 ^ k := Nat.pow_le_pow_right (by decide) hjk
  rw [Nat.pow_succ] at h4
  omega

theorem push_back_pow2 [Inhabited T] (a : dynamic_array T) (v : T) (hwf : a.WF)
    (hgrow : a.size_ = a.capacity_ → 2 * a.capacity_ < SIZE_MOD)
    (h : (a.size_ = 0 ∧ a.capacity_ = 0) ∨
      ∃ k, a.capacity_ = 2 ^ k ∧ a.size_ ≤ a.capacity_ ∧ a.capacity_ < 2 * a.size_) :
    ∃ a1, a.push_back (.ext v) = .ok a1 ∧ a1.WF ∧ a1.size_ = a.size_ + 1 ∧
      ∃ k, a1.capacity_ = 2 ^ k ∧ a1.size_ ≤ a1.capacity_ ∧ a1.capacity_ < 2 * a1.size_ := by
  obtain ⟨a1, e1, w1, s1, c1, _⟩ := push_back_spec a v hwf hgrow
  refine ⟨a1, e1, w1, s1, ?_⟩
  rcases h with ⟨h0, hc0⟩ | ⟨k, hk, hle, hlt⟩
  · rw [if_pos (by omega), hc0] at c1
    refine ⟨0, ?_, ?_, ?_⟩
    · rw [c1]
      rfl
    · rw [c1, s1, h0]
      decide
    · rw [c1, s1, h0]
      decide
  · have hp : 0 < 2 ^ k := Nat.pow_pos (by decide)
    by_cases hf : a.size_ = a.capacity_
    · rw [if_pos hf] at c1
      refine ⟨k + 1, ?_, ?_, ?_⟩
      · rw [c1, Nat.pow_succ, hk]
        omega
      · omega
      · omega
    · rw [if_neg hf] at c1
      exact ⟨k, by rw [c1, hk], by omega, by omega⟩

theorem push_back_all_pow2 [Inhabited T] (vs : List T) :
    ∀ a : dynamic_array T, a.WF → 2 * (a.size_ + vs.length) ≤ SIZE_MOD →
      ((a.size_ = 0 ∧ a.capacity_ = 0) ∨
        ∃ k, a.capacity_ = 2 ^ k ∧ a.size_ ≤ a.capacity_ ∧ a.capacity_ < 2 * a.size_) →
      ∃ a1, push_back_all a vs = .ok a1 ∧ a1.size_ = a.size_ + vs.length ∧
        ((a1.size_ = 0 ∧ a1.capacity_ = 0) ∨
          ∃ k, a1.capacity_ = 2 ^ k ∧ a1.size_ ≤ a1.capacity_ ∧
            a1.capacity_ < 2 * a1.size_) := by
  induction vs with
  | nil =>
    intro a _ _ h
    exact ⟨a, rfl, rfl, h⟩
  | cons v vs ih =>
    intro a hwf hb h
    have hcap := hwf.2.1
    rw [List.length_cons] at hb
    obtain ⟨a1, e1, w1, s1, h1⟩ := push_back_pow2 a v hwf (by intro hf; omega) h
    obtain ⟨a2, e2, s2, h2⟩ := ih a1 w1 (by omega) (Or.inr h1)
    refine ⟨a2, ?_, ?_, h2⟩
    · rw [push_back_all, e1, ok_bind]
      exact e2
    · rw [s2, s1, List.length_cons]
      omega

theorem copy_loop_pow2 [Inhabited T] (other : dynamic_array T)
    (hlen : other.size_ ≤ other.data_.length) (hsz : 2 * other.size_ ≤ SIZE_MOD) :
    ∀ (fuel i : Nat) (a : dynamic_array T), a.WF → a.size_ = i → i ≤ other.size_ →
      other.size_ - i < fuel →
      ((a.size_ = 0 ∧ a.capacity_ = 0) ∨
        ∃ k, a.capacity_ = 2 ^ k ∧ a.size_ ≤ a.capacity_ ∧ a.capacity_ < 2 * a.size_) →
      ∃ a1, copy_loop other fuel i a = .ok a1 ∧ a1.size_ = other.size_ ∧
        ((a1.size_ = 0 ∧ a1.capacity_ = 0) ∨
          ∃ k, a1.capacity_ = 2 ^ k ∧ a1.size_ ≤ a1.capacity_ ∧
            a1.capacity_ < 2 * a1.size_) := by
  intro fuel
  induction fuel with
  | zero => intro i a _ _ _ h; omega
  | succ fuel ih =>
    intro i a hwf hsi hi hfuel h
    by_cases hlt : i < other.size_
    · obtain ⟨x, hx, hat⟩ := at_ok hlen hlt
      have hcap := hwf.2.1
      obtain ⟨a1, e1, w1, s1, h1⟩ := push_back_pow2 a x hwf (by intro hf; omega) h
      obtain ⟨a2, e2, s2, h2⟩ := ih (i + 1) a1 w1 (by omega) (by omega) (by omega) (Or.inr h1)
      refine ⟨a2, ?_, s2, h2⟩
      rw [copy_loop, size_eq, if_pos hlt, at_other_ok hat, ok_bind, e1, ok_bind]
      exact e2
    · refine ⟨a, ?_, by omega, h⟩
      rw [copy_loop, size_eq, if_neg hlt]

theorem mk_copy_pow2 [Inhabited T] (other : dynamic_array T) (hwf : other.WF)
    (hsz : 2 * other.size_ ≤ SIZE_MOD) :
    ∃ c, mk_copy other = .ok c ∧ c.size_ = other.size_ ∧
      ((c.size_ = 0 ∧ c.capacity_ = 0) ∨
        ∃ k, c.capacity_ = 2 ^ k ∧ c.size_ ≤ c.capacity_ ∧ c.capacity_ < 2 * c.size_) := by
  have hlen : other.size_ ≤ other.data_.length := by
    obtain ⟨h1, h2, _⟩ := hwf
    omega
  exact copy_loop_pow2 other hlen hsz (other.size_ + 1) 0 (mk_default : dynamic_array T).clear
    mk_default_WF rfl (by omega) (by omega) (Or.inl ⟨rfl, rfl⟩)

theorem resize_within {a : dynamic_array T} [Inhabited T] {n : Nat} (hn : n ≤ a.capacity_) :
    a.resize n = .ok { a with size_ := n } := by
  unfold resize
  rw [capacity_eq, if_neg (by omega), ok_bind]

theorem take_elements_le (a : dynamic_array T) {n : Nat} (hn : n ≤ a.size_) :
    a.data_.take n = a.elements.take n := by
  unfold elements
  rw [List.take_take]
  congr 1
  omega

/-- C20: `resize` within the allocated block only sets `size_`, so slots that held elements
come back as they were.  `clear()` followed by `resize(size-before)` gives back the array
itself, with the logical sequence `xs`.  After a truncation to `k` elements by `resize(k)`, a
`resize(n)` with `k ≤ n ≤ size-before` leaves the first `n` elements of `xs`; after a
`pop_back()`, `resize(size-before)` leaves `xs`. -/
theorem resize_reexposes [Inhabited T] (a : dynamic_array T) (hwf : a.WF) :
    (a.clear.resize a.size = .ok a ∧
      ∃ a1, a.clear.resize a.elements.length = .ok a1 ∧ a1.elements = a.elements) ∧
    (∀ k n, k ≤ n → n ≤ a.size →
      ∃ a1 a2, a.resize k = .ok a1 ∧ a1.elements = a.elements.take k ∧
        a1.resize n = .ok a2 ∧ a2.elements = a.elements.take n) ∧
    (a.size ≠ 0 →
      ∃ a1 a2, a.pop_back = .ok a1 ∧ a1.elements = a.elements.dropLast ∧
        a1.resize a.size = .ok a2 ∧ a2.elements = a.elements) := by
  obtain ⟨h1, h2, h3⟩ := hwf
  have hlen : a.size_ ≤ a.data_.length := by omega
  have hclear : a.clear.resize a.size_ = .ok a :=
    resize_within (a := a.clear) (by show a.size_ ≤ a.capacity_; exact h2)
  refine ⟨⟨hclear, a, ?_, rfl⟩, ?_, ?_⟩
  · rw [elements_length hlen]
    exact hclear
  · intro k n hkn hn
    have hn1 : n ≤ a.size_ := hn
    refine ⟨{ a with size_ := k }, { a with size_ := n }, resize_within (by omega), ?_,
      resize_within (a := { a with size_ := k }) (by show n ≤ a.capacity_; omega), ?_⟩
    · show a.data_.take k = a.elements.take k
      exact take_elements_le a (by omega)
    · show a.data_.take n = a.elements.take n
      exact take_elements_le a hn1
  · intro hne
    have hne1 : a.size_ ≠ 0 := hne
    refine ⟨{ a with size_ := a.size_ - 1 }, a, ?_, ?_,
      resize_within (a := { a with size_ := a.size_ - 1 })
        (by show a.size_ ≤ a.capacity_; exact h2), rfl⟩
    · unfold pop_back
      rw [if_neg (fun he => hne1 ((empty_iff a).mp he))]
    · show a.data_.take (a.size_ - 1) = _
      rw [List.dropLast_eq_take, elements_length hlen]
      exact take_elements_le a (by omega)

theorem resize_reexposes_witness :
    (⟨[1, 2, 3, 0], 4, 3⟩ : dynamic_array Nat).WF ∧
    (((⟨[1, 2, 3, 0], 4, 3⟩ : dynamic_array Nat).clear.resize
        (⟨[1, 2, 3, 0], 4, 3⟩ : dynamic_array Nat).size = .ok ⟨[1, 2, 3, 0], 4, 3⟩ ∧
      ∃ a1, (⟨[1, 2, 3, 0], 4, 3⟩ : dynamic_array Nat).clear.resize
          (⟨[1, 2, 3, 0], 4, 3⟩ : dynamic_array Nat).elements.length = .ok a1 ∧
        a1.elements = (⟨[1, 2, 3, 0], 4, 3⟩ : dynamic_array Nat).elements) ∧
    (∀ k n, k ≤ n → n ≤ (⟨[1, 2, 3, 0], 4, 3⟩ : dynamic_array Nat).size →
      ∃ a1 a2, (⟨[1, 2, 3, 0], 4, 3⟩ : dynamic_array Nat).resize k = .ok a1 ∧
        a1.elements = (⟨[1, 2, 3, 0], 4, 3⟩ : dynamic_array Nat).elements.take k ∧
        a1.resize n = .ok a2 ∧
        a2.elements = (⟨[1, 2, 3, 0], 4, 3⟩ : dynamic_array Nat).elements.take n) ∧
    ((⟨[1, 2, 3, 0], 4, 3⟩ : dynamic_array Nat).size ≠ 0 →
      ∃ a1 a2, (⟨[1, 2, 3, 0], 4, 3⟩ : dynamic_array Nat).pop_back = .ok a1 ∧
        a1.elements = (⟨[1, 2, 3, 0], 4, 3⟩ : dynamic_array Nat).elements.dropLast ∧
        a1.resize (⟨[1, 2, 3, 0], 4, 3⟩ : dynamic_array Nat).size = .ok a2 ∧
        a2.elements = (⟨[1, 2, 3, 0], 4, 3⟩ : dynamic_array Nat).elements)) :=
  ⟨by decide, resize_reexposes ⟨[1, 2, 3, 0], 4, 3⟩ (by decide)⟩

end dynamic_array

end mydsl
